import Mathlib

/-!
# Verification of the Browser-copilot intent / planner / agent pipeline

A shallow embedding, in Lean 4, of the algorithmic core of the
Browser-copilot browser extension:

* the deterministic intent parser `inferIntentDeterministic`
  (src/common/intent-engine.ts),
* the planner `planWithLLM` / `planRuleBased` (src/background/index.ts),
* the agent run loop `runAgent` and its broadcast trace
  (src/background/index.ts),
* the content-side action executor `executeAction` and the `FILL_FIELD`
  message handler (src/content/agent.ts, src/content/index.ts),
* the page scanner's `extractElements` (src/content/agent.ts).

JavaScript strings are modelled as Lean `String` (lists of characters);
`String.prototype.toLowerCase` is modelled on the ASCII range by
`jsCharLower`, `trim` by `jsTrim` over the whitespace class
space/tab/newline/carriage-return, and the specific regular expressions
appearing in the source are hand-translated into recursive scanners with
JS semantics (leftmost match, `.` not matching newlines, greedy with
backtracking where the pattern requires it).  The live DOM is modelled as
the query interface the code actually uses (`querySelector` as a function
from selector strings to optional elements).  All definitions are
executable, so every concrete counterexample below is checked by kernel
evaluation.
-/

namespace BrowserCopilot

/-! ## JS string primitives -/

/-- The whitespace class used to model `String.prototype.trim` and the
regex class `\s` (restricted to the characters relevant here). -/
def wsC (c : Char) : Bool := c == ' ' || c == '\t' || c == '\n' || c == '\r'

/-- The characters `.` does not match in a JS regex without the `s` flag. -/
def nlC (c : Char) : Bool := c == '\n' || c == '\r'

/-- ASCII model of `String.prototype.toLowerCase` on a single character. -/
def jsCharLower (c : Char) : Char :=
  if c = 'A' then 'a' else if c = 'B' then 'b' else if c = 'C' then 'c'
  else if c = 'D' then 'd' else if c = 'E' then 'e' else if c = 'F' then 'f'
  else if c = 'G' then 'g' else if c = 'H' then 'h' else if c = 'I' then 'i'
  else if c = 'J' then 'j' else if c = 'K' then 'k' else if c = 'L' then 'l'
  else if c = 'M' then 'm' else if c = 'N' then 'n' else if c = 'O' then 'o'
  else if c = 'P' then 'p' else if c = 'Q' then 'q' else if c = 'R' then 'r'
  else if c = 'S' then 's' else if c = 'T' then 't' else if c = 'U' then 'u'
  else if c = 'V' then 'v' else if c = 'W' then 'w' else if c = 'X' then 'x'
  else if c = 'Y' then 'y' else if c = 'Z' then 'z' else c

def upperAscii : List Char :=
  ['A','B','C','D','E','F','G','H','I','J','K','L','M',
   'N','O','P','Q','R','S','T','U','V','W','X','Y','Z']

def lowerAscii : List Char :=
  ['a','b','c','d','e','f','g','h','i','j','k','l','m',
   'n','o','p','q','r','s','t','u','v','w','x','y','z']

/-- `String.prototype.toLowerCase` (ASCII model). -/
def jsLower (s : String) : String := ⟨s.data.map jsCharLower⟩

/-- `dropWhile`-based left trim over char lists. -/
def ltrimL (l : List Char) : List Char := l.dropWhile wsC

/-- Right trim over char lists. -/
def rtrimL (l : List Char) : List Char := (l.reverse.dropWhile wsC).reverse

/-- `String.prototype.trim`. -/
def jsTrim (s : String) : String := ⟨rtrimL (ltrimL s.data)⟩

/-- `String.prototype.slice(n)` (code-unit index modelled as char index). -/
def jsSlice (s : String) (n : Nat) : String := ⟨s.data.drop n⟩

/-- `p.isPrefixOf l` over char lists (explicit, so that it evaluates and
proves by `rfl`). -/
def hasPref : List Char → List Char → Bool
  | [], _ => true
  | _ :: _, [] => false
  | p :: ps, c :: cs => p == c && hasPref ps cs

/-- Strip a literal prefix, returning the remainder on success. -/
def dropPref : List Char → List Char → Option (List Char)
  | [], cs => some cs
  | _ :: _, [] => none
  | p :: ps, c :: cs => if p = c then dropPref ps cs else none

/-- `hay.includes(needle)` for JS strings, over char lists. -/
def inclL (needle : List Char) : List Char → Bool
  | [] => needle.isEmpty
  | c :: t => hasPref needle (c :: t) || inclL needle t

/-- `hay.includes(needle)` for JS strings. -/
def strIncl (hay needle : String) : Bool := inclL needle.data hay.data

/-- JS `a || b` on strings (first operand if non-empty/truthy). -/
def jsOr (a b : String) : String := if a = "" then b else a

/-! ## Basic lemmas about the string primitives -/

theorem jsCharLower_eq_of_not_upper {c : Char} (hc : c ∉ upperAscii) :
    jsCharLower c = c := by
  have h : ∀ d, d ∈ upperAscii → c ≠ d := fun d hd he => hc (he ▸ hd)
  unfold jsCharLower
  rw [if_neg (h 'A' (by decide)), if_neg (h 'B' (by decide)),
    if_neg (h 'C' (by decide)), if_neg (h 'D' (by decide)),
    if_neg (h 'E' (by decide)), if_neg (h 'F' (by decide)),
    if_neg (h 'G' (by decide)), if_neg (h 'H' (by decide)),
    if_neg (h 'I' (by decide)), if_neg (h 'J' (by decide)),
    if_neg (h 'K' (by decide)), if_neg (h 'L' (by decide)),
    if_neg (h 'M' (by decide)), if_neg (h 'N' (by decide)),
    if_neg (h 'O' (by decide)), if_neg (h 'P' (by decide)),
    if_neg (h 'Q' (by decide)), if_neg (h 'R' (by decide)),
    if_neg (h 'S' (by decide)), if_neg (h 'T' (by decide)),
    if_neg (h 'U' (by decide)), if_neg (h 'V' (by decide)),
    if_neg (h 'W' (by decide)), if_neg (h 'X' (by decide)),
    if_neg (h 'Y' (by decide)), if_neg (h 'Z' (by decide))]

theorem jsCharLower_spec (c : Char) :
    jsCharLower c = c ∨ (jsCharLower c ∈ lowerAscii ∧ c ∈ upperAscii) := by
  by_cases hc : c ∈ upperAscii
  · right
    refine ⟨?_, hc⟩
    fin_cases hc <;> decide
  · left
    exact jsCharLower_eq_of_not_upper hc

/-- Lowercasing cannot create or destroy a character outside the ASCII
letter range: for such `d`, `jsCharLower c = d ↔ c = d`. -/
theorem jsCharLower_eq_special {d : Char} (hd1 : d ∉ lowerAscii)
    (hd2 : d ∉ upperAscii) (c : Char) : jsCharLower c = d ↔ c = d := by
  rcases jsCharLower_spec c with h | ⟨h1, h2⟩
  · rw [h]
  · constructor
    · intro he; rw [he] at h1; exact absurd h1 hd1
    · intro he; rw [he] at h2; exact absurd h2 hd2

theorem wsC_jsCharLower (c : Char) : wsC (jsCharLower c) = wsC c := by
  rcases jsCharLower_spec c with h | ⟨h1, h2⟩
  · rw [h]
  · have e1 := (show ∀ d ∈ lowerAscii, wsC d = false by decide) _ h1
    have e2 := (show ∀ d ∈ upperAscii, wsC d = false by decide) _ h2
    rw [e1, e2]

theorem nlC_jsCharLower (c : Char) : nlC (jsCharLower c) = nlC c := by
  rcases jsCharLower_spec c with h | ⟨h1, h2⟩
  · rw [h]
  · have e1 := (show ∀ d ∈ lowerAscii, nlC d = false by decide) _ h1
    have e2 := (show ∀ d ∈ upperAscii, nlC d = false by decide) _ h2
    rw [e1, e2]

theorem dropPref_append (p l : List Char) : dropPref p (p ++ l) = some l := by
  induction p with
  | nil => rfl
  | cons c cs ih => simp [dropPref, ih]

theorem jsLower_append (a b : String) :
    jsLower (a ++ b) = jsLower a ++ jsLower b := by
  show (⟨(a.data ++ b.data).map jsCharLower⟩ : String) = _
  simp [jsLower, String.ext_iff]

theorem jsLower_data (s : String) : (jsLower s).data = s.data.map jsCharLower := rfl

/-! ## Intent parser (src/common/intent-engine.ts)

```ts
export function inferIntentDeterministic(text: string): Intent | null {
  const t = text.trim().toLowerCase();
  if (/^scroll (down|up)/.test(t)) {
    return { type: "SCROLL", direction: t.includes("down") ? "down" : "up" };
  }
  if (t.startsWith("open ")) { ... }
  if (/^search /.test(t)) return { type: "SEARCH_WEB", query: text.slice(7).trim() };
  if (/summary|summarize|tl;dr/.test(t)) return { type: "SUMMARY" };
  const fill = t.match(/^fill (.+?)=(.+)$/);
  if (fill) return { type: "FILL_FIELD", label: fill[1].trim(), value: fill[2].trim() };
  const click = t.match(/^click (.+)$/);
  if (click) return { type: "CLICK_LABEL", label: click[1].trim() };
  return null;
}
```
-/

inductive ScrollDir where
  | up
  | down
deriving DecidableEq, Repr

/-- The `Intent` union of src/common/intents.ts.  The `SCROLL` intent's
optional `amount` field is carried but never set by the deterministic
parser. -/
inductive Intent where
  | scroll (direction : ScrollDir) (amount : Option ℚ)
  | openUrl (url : String)
  | searchWeb (query : String)
  | summary
  | fillField (label : String) (value : String)
  | clickLabel (label : String)
deriving DecidableEq, Repr

/-- `/^(https?:\/\/[^\s]+)$/i` of intent-engine.ts: an anchored,
case-insensitive scheme-prefixed URL with at least one following
non-whitespace character and nothing else. -/
def urlRE (s : String) : Bool :=
  let ls := (jsLower s).data
  match dropPref "http".data ls with
  | none => false
  | some r1 =>
    let r2 := match dropPref "s".data r1 with
      | some r => r
      | none => r1
    match dropPref "://".data r2 with
    | none => false
    | some rest => !rest.isEmpty && rest.all (fun c => !wsC c)

/-- Lazy search for the separating `=` of `/^fill (.+?)=(.+)$/` in the
characters after the lazy group's mandatory first one: the first `=`
that still has a character after it ends group 1; any earlier character
— including an `=` that is last, which the greedy group 2 cannot accept
— is backtracked into group 1. -/
def lazyEq : List Char → Option (List Char × List Char)
  | [] => none
  | c :: cs =>
    if c = '=' ∧ cs ≠ [] then some ([], cs)
    else (lazyEq cs).map (fun p => (c :: p.1, p.2))

/-- `t.match(/^fill (.+?)=(.+)$/)`: after the literal `fill ` prefix the
lazy group takes the shortest non-empty prefix followed by an `=` that
has at least one character after it, and the greedy group the rest — so
a leading `=` is absorbed as the lazy group's first character, and an
`=` in final position is backtracked over (`fill =a=b` gives groups
`=a` and `b`).  Since `.` matches no newline, `$` (no `m` flag) matches
only the string end, and the two groups plus the separator cover the
whole remainder, a newline anywhere in it makes every split fail. -/
def fillMatch (t : String) : Option (String × String) :=
  match dropPref "fill ".data t.data with
  | none => none
  | some rest =>
    if rest.all (fun c => !nlC c) then
      match rest with
      | [] => none
      | c0 :: rs => (lazyEq rs).map (fun p => (⟨c0 :: p.1⟩, ⟨p.2⟩))
    else none

/-- `t.match(/^click (.+)$/)`. -/
def clickMatch (t : String) : Option String :=
  match dropPref "click ".data t.data with
  | none => none
  | some rest =>
    if !rest.isEmpty && rest.all (fun c => !nlC c) then some ⟨rest⟩ else none

/-- `/^scroll (down|up)/.test(t)`. -/
def scrollTest (t : String) : Bool :=
  match dropPref "scroll ".data t.data with
  | none => false
  | some r => hasPref "down".data r || hasPref "up".data r

/-- `inferIntentDeterministic` of src/common/intent-engine.ts.  Note that
the scroll direction is computed by `t.includes("down")`, not from the
matched alternative, and that the fill/click branches capture from the
lowercased `t` while the open/search branches slice the original
`text`. -/
def inferIntentDeterministic (text : String) : Option Intent :=
  let t := jsLower (jsTrim text)
  if scrollTest t then
    some (.scroll (if strIncl t "down" then .down else .up) none)
  else if hasPref "open ".data t.data then
    let rest := jsTrim (jsSlice text 5)
    if urlRE rest then some (.openUrl rest) else some (.searchWeb rest)
  else if hasPref "search ".data t.data then
    some (.searchWeb (jsTrim (jsSlice text 7)))
  else if strIncl t "summary" || strIncl t "summarize" || strIncl t "tl;dr" then
    some .summary
  else
    match fillMatch t with
    | some (x, y) => some (.fillField (jsTrim x) (jsTrim y))
    | none =>
      match clickMatch t with
      | some l => some (.clickLabel (jsTrim l))
      | none => none

/-! ## Lemmas about trimming and lowercasing -/

theorem ltrimL_cons_of_not_ws {c : Char} (hc : wsC c = false) (l : List Char) :
    ltrimL (c :: l) = c :: l := by
  simp [ltrimL, List.dropWhile_cons, hc]

theorem rtrimL_eq_nil_iff (l : List Char) :
    rtrimL l = [] ↔ ∀ c ∈ l, wsC c = true := by
  simp [rtrimL, List.dropWhile_eq_nil_iff, List.mem_reverse]

theorem rtrimL_append_of_ne_nil {l2 : List Char} (h : rtrimL l2 ≠ [])
    (l1 : List Char) : rtrimL (l1 ++ l2) = l1 ++ rtrimL l2 := by
  have h2 : (l2.reverse.dropWhile wsC).isEmpty = false := by
    rcases e : l2.reverse.dropWhile wsC with _ | ⟨c, r⟩
    · exact absurd (by simp [rtrimL, e]) h
    · rfl
  simp [rtrimL, List.reverse_append, List.dropWhile_append, h2]

theorem dropWhile_head_false {α : Type} (p : α → Bool) :
    ∀ (l : List α) {c : α} {r : List α}, l.dropWhile p = c :: r → p c = false
  | [], _, _, h => by simp at h
  | a :: t, c, r, h => by
    by_cases hp : p a
    · exact dropWhile_head_false p t
        (by rw [List.dropWhile_cons, if_pos hp] at h; exact h)
    · rw [List.dropWhile_cons, if_neg hp] at h
      have : a = c := (List.cons.injEq _ _ _ _).mp h |>.1
      rw [← this]
      exact Bool.eq_false_iff.mpr hp

theorem dropWhile_idem {α : Type} (p : α → Bool) (l : List α) :
    List.dropWhile p (List.dropWhile p l) = List.dropWhile p l := by
  rcases e : List.dropWhile p l with _ | ⟨c, r⟩
  · rfl
  · rw [List.dropWhile_cons, if_neg]
    simp [dropWhile_head_false p l e]

theorem rtrimL_idem (l : List Char) : rtrimL (rtrimL l) = rtrimL l := by
  simp [rtrimL, List.reverse_reverse, dropWhile_idem]

theorem rtrimL_cons_of_not_ws {c : Char} (hc : wsC c = false) (r : List Char) :
    rtrimL (c :: r) = c :: rtrimL r := by
  by_cases h : rtrimL r = []
  · have hall := (rtrimL_eq_nil_iff r).mp h
    have hrev : List.dropWhile wsC r.reverse = [] := by
      rw [List.dropWhile_eq_nil_iff]
      intro x hx
      exact hall x (List.mem_reverse.mp hx)
    simp [rtrimL, List.reverse_cons, List.dropWhile_append, hrev,
      List.dropWhile_cons, hc, h]
  · have h2 : (r.reverse.dropWhile wsC).isEmpty = false := by
      rcases e : r.reverse.dropWhile wsC with _ | _
      · exact absurd (by simp [rtrimL, e]) h
      · rfl
    simp [rtrimL, List.reverse_cons, List.dropWhile_append, h2]

theorem mem_rtrimL {x : Char} {l : List Char} (h : x ∈ rtrimL l) : x ∈ l := by
  have h1 : x ∈ List.dropWhile wsC l.reverse := by
    rw [rtrimL] at h
    exact List.mem_reverse.mp h
  exact List.mem_reverse.mp ((List.dropWhile_sublist wsC).subset h1)

/-- Trimming a right-trimmed list equals right-trimming the left-trimmed
list: both compute the fully trimmed list. -/
theorem jsTrim_rtrim (M : List Char) :
    jsTrim ⟨rtrimL M⟩ = ⟨rtrimL (ltrimL M)⟩ := by
  show (⟨rtrimL (ltrimL (rtrimL M))⟩ : String) = ⟨rtrimL (ltrimL M)⟩
  rcases e : ltrimL M with _ | ⟨c, r⟩
  · have hall : ∀ x ∈ M, wsC x = true := List.dropWhile_eq_nil_iff.mp e
    have h1 : rtrimL M = [] := (rtrimL_eq_nil_iff M).mpr hall
    rw [h1]
    rfl
  · have hc : wsC c = false := dropWhile_head_false _ _ e
    have hM : List.takeWhile wsC M ++ (c :: r) = M := by
      rw [← e]
      exact List.takeWhile_append_dropWhile wsC M
    have hcr : rtrimL (c :: r) ≠ [] := by
      rw [rtrimL_cons_of_not_ws hc]
      simp
    have h2 : rtrimL M = List.takeWhile wsC M ++ rtrimL (c :: r) := by
      conv_lhs => rw [← hM]
      exact rtrimL_append_of_ne_nil hcr _
    have htw : (List.dropWhile wsC (List.takeWhile wsC M)).isEmpty = true := by
      have : List.dropWhile wsC (List.takeWhile wsC M) = [] := by
        rw [List.dropWhile_eq_nil_iff]
        intro x hx
        exact List.mem_takeWhile_imp hx
      simp [this]
    have h3 : ltrimL (rtrimL M) = rtrimL (c :: r) := by
      rw [h2]
      show List.dropWhile wsC _ = _
      rw [List.dropWhile_append, if_pos htw, rtrimL_cons_of_not_ws hc,
        List.dropWhile_cons, if_neg (by simp [hc])]
    rw [h3, rtrimL_idem]

theorem rtrimL_map_jsCharLower (l : List Char) :
    rtrimL (l.map jsCharLower) = (rtrimL l).map jsCharLower := by
  have hws : (wsC ∘ jsCharLower) = wsC := funext wsC_jsCharLower
  simp [rtrimL, ← List.map_reverse, List.dropWhile_map, hws]

theorem lazyEq_append {A : List Char} (hA : '=' ∉ A) {B : List Char}
    (hB : B ≠ []) : lazyEq (A ++ '=' :: B) = some (A, B) := by
  induction A with
  | nil => simp [lazyEq, hB]
  | cons c cs ih =>
    have hc : ¬(c = '=') := fun e => hA (by rw [e]; exact List.mem_cons_self _ _)
    have hcs : '=' ∉ cs := fun m => hA (List.mem_cons_of_mem _ m)
    simp [lazyEq, hc, ih hcs]

/-- `fillMatch` on a remainder `A=B` with `A` non-empty and `=`-free and
`B` non-empty (all newline-free): group 1 is `A`, group 2 is `B`. -/
theorem fillMatch_append {A B : List Char} (hA0 : A ≠ []) (hAeq : '=' ∉ A)
    (hB0 : B ≠ []) (hnl : (A ++ '=' :: B).all (fun c => !nlC c) = true) :
    fillMatch ⟨"fill ".data ++ (A ++ '=' :: B)⟩ = some (⟨A⟩, ⟨B⟩) := by
  rcases A with _ | ⟨a0, al⟩
  · exact absurd rfl hA0
  · have ha' : '=' ∉ al := fun h => hAeq (List.mem_cons_of_mem _ h)
    have hstep : fillMatch ⟨"fill ".data ++ ((a0 :: al) ++ '=' :: B)⟩
        = if (((a0 :: al) ++ '=' :: B).all fun c => !nlC c) = true then
            Option.map (fun p => ((⟨a0 :: p.1⟩ : String), (⟨p.2⟩ : String)))
              (lazyEq (al ++ '=' :: B))
          else none := rfl
    rw [hstep, lazyEq_append ha' hB0, if_pos hnl]
    rfl

/-- The lazy group backtracks past an `=` it cannot use as the
separator: a leading `=` (the group needs one character first) and a
final `=` (the greedy group needs one character after) are absorbed, as
in the JS engine. -/
theorem fillMatch_backtracks :
    fillMatch "fill =a=b" = some ("=a", "b") ∧
    fillMatch "fill ==b" = some ("=", "b") ∧
    fillMatch "fill a=" = none ∧
    fillMatch "fill a=b=c" = some ("a", "b=c") :=
  ⟨rfl, rfl, rfl, rfl⟩

/-! ## Claim C8 — scroll intents -/

/-- C8, counterexample.  For the input `scroll up down`, the regex
`^scroll (down|up)` matches with the alternative `up` (the alternative
`down` fails at that position), yet the parser returns direction `down`,
because the direction is computed from `t.includes("down")` over the whole
input rather than from the matched group.  The claim "returns SCROLL with
the direction that was matched" is therefore false. -/
theorem C8_cex :
    hasPref "down".data "up down".data = false ∧
    hasPref "up".data "up down".data = true ∧
    inferIntentDeterministic "scroll up down" =
      some (.scroll .down none) := by
  refine ⟨rfl, rfl, ?_⟩
  rfl

/-- C8, amended.  For every input whose trimmed, lowercased form `t`
matches `^scroll (down|up)`, the parser returns a SCROLL intent and no
other variant, but its direction is `down` exactly when `t` contains the
substring `down` anywhere (so it equals the matched direction only when no
other occurrence of `down` follows a matched `scroll up`); the `amount`
field is left unset (`none`), the default `0.8` being applied only by the
downstream scroll handlers. -/
theorem C8_scroll_direction (s : String)
    (h : scrollTest (jsLower (jsTrim s)) = true) :
    inferIntentDeterministic s =
      some (.scroll
        (if strIncl (jsLower (jsTrim s)) "down" then .down else .up) none) := by
  simp only [inferIntentDeterministic]
  rw [h]
  simp

/-- C8 witness: the amended theorem applied to a concrete scroll input
with surrounding whitespace and mixed casing. -/
theorem C8_scroll_direction_w :
    inferIntentDeterministic "  SCROLL DOWN please " =
      some (.scroll .down none) :=
  C8_scroll_direction "  SCROLL DOWN please " (by decide)

/-! ## Claim C7 — `fill X=Y` -/

/-- C7, counterexample.  The fill branch matches against the *lowercased*
input `t`, so for `fill name=John` the parsed value is `john`, not the
claimed exact `John`. -/
theorem C7_cex :
    inferIntentDeterministic "fill name=John" =
      some (.fillField "name" "john") ∧ "john" ≠ "John" := by
  refine ⟨?_, by decide⟩
  rfl

/-- C7, amended.  For non-empty `X` and newline-free `X`, `Y` with no `=`
in `X`, a non-whitespace character in `Y`, and none of
summary/summarize/tl;dr occurring in the lowercased input (those branches
fire first), `fill X=Y` parses to FILL_FIELD whose label is X *lowercased*
and trimmed and whose value is Y *lowercased* and trimmed — the value is
not preserved exactly as given. -/
theorem C7_fill_lowercased (X Y : String)
    (hX0 : X.data ≠ [])
    (hXeq : '=' ∉ X.data)
    (hXnl : ∀ c ∈ X.data, nlC c = false)
    (hYnl : ∀ c ∈ Y.data, nlC c = false)
    (hY0 : (jsTrim Y).data ≠ [])
    (hs1 : strIncl (jsLower (jsTrim ("fill " ++ X ++ "=" ++ Y))) "summary" = false)
    (hs2 : strIncl (jsLower (jsTrim ("fill " ++ X ++ "=" ++ Y))) "summarize" = false)
    (hs3 : strIncl (jsLower (jsTrim ("fill " ++ X ++ "=" ++ Y))) "tl;dr" = false) :
    inferIntentDeterministic ("fill " ++ X ++ "=" ++ Y) =
      some (.fillField (jsTrim (jsLower X)) (jsTrim (jsLower Y))) := by
  have hFdata : ("fill " ++ X ++ "=" ++ Y).data
      = "fill ".data ++ (X.data ++ '=' :: Y.data) := by
    rw [String.data_append, String.data_append, String.data_append]
    have he : "=".data = ['='] := rfl
    simp [he, List.append_assoc]
  have hYr : rtrimL Y.data ≠ [] := by
    intro h0
    apply hY0
    have hall := (rtrimL_eq_nil_iff _).mp h0
    have hl : ltrimL Y.data = [] := List.dropWhile_eq_nil_iff.mpr hall
    show rtrimL (ltrimL Y.data) = []
    rw [hl]
    rfl
  have htrim : jsTrim ("fill " ++ X ++ "=" ++ Y)
      = ⟨("fill ".data ++ X.data ++ ['=']) ++ rtrimL Y.data⟩ := by
    show (⟨rtrimL (ltrimL (("fill " ++ X ++ "=" ++ Y).data))⟩ : String) = _
    rw [hFdata]
    have hcons : "fill ".data ++ (X.data ++ '=' :: Y.data)
        = 'f' :: ("ill ".data ++ (X.data ++ '=' :: Y.data)) := rfl
    rw [hcons, ltrimL_cons_of_not_ws (by decide), ← hcons]
    have hgrp : "fill ".data ++ (X.data ++ '=' :: Y.data)
        = ("fill ".data ++ X.data ++ ['=']) ++ Y.data := by
      simp [List.append_assoc]
    rw [hgrp, rtrimL_append_of_ne_nil hYr]
  have ht : jsLower (jsTrim ("fill " ++ X ++ "=" ++ Y))
      = ⟨"fill ".data ++ (X.data.map jsCharLower ++
          '=' :: (rtrimL Y.data).map jsCharLower)⟩ := by
    rw [htrim]
    refine congrArg String.mk ?_
    show (("fill ".data ++ X.data ++ ['=']) ++ rtrimL Y.data).map jsCharLower = _
    have e1 : "fill ".data.map jsCharLower = "fill ".data := by decide
    have e2 : jsCharLower '=' = '=' := by decide
    simp [List.map_append, e1, e2]
    decide
  rw [ht] at hs1 hs2 hs3
  have hXlne : '=' ∉ X.data.map jsCharLower := by
    intro hm
    rcases List.mem_map.mp hm with ⟨d, hd, he⟩
    rw [jsCharLower_eq_special (by decide) (by decide) d] at he
    exact hXeq (he ▸ hd)
  have hallnl : (X.data.map jsCharLower ++
      '=' :: (rtrimL Y.data).map jsCharLower).all (fun c => !nlC c) = true := by
    rw [List.all_append, List.all_cons]
    have hx : (X.data.map jsCharLower).all (fun c => !nlC c) = true := by
      rw [List.all_map, List.all_eq_true]
      intro c hc
      simp [Function.comp, nlC_jsCharLower, hXnl c hc]
    have hy : ((rtrimL Y.data).map jsCharLower).all (fun c => !nlC c) = true := by
      rw [List.all_map, List.all_eq_true]
      intro c hc
      simp [Function.comp, nlC_jsCharLower, hYnl c (mem_rtrimL hc)]
    simp [hx, hy]
    decide
  have hx0 : X.data.map jsCharLower ≠ [] := by
    rw [ne_eq, List.map_eq_nil_iff]
    exact hX0
  have hy0 : (rtrimL Y.data).map jsCharLower ≠ [] := by
    rw [ne_eq, List.map_eq_nil_iff]
    exact hYr
  have hfm : fillMatch ⟨"fill ".data ++ (X.data.map jsCharLower ++
      '=' :: (rtrimL Y.data).map jsCharLower)⟩
      = some (⟨X.data.map jsCharLower⟩, ⟨(rtrimL Y.data).map jsCharLower⟩) :=
    fillMatch_append hx0 hXlne hy0 hallnl
  have hval : jsTrim ⟨(rtrimL Y.data).map jsCharLower⟩ = jsTrim (jsLower Y) := by
    have hcomm : (rtrimL Y.data).map jsCharLower = rtrimL ((jsLower Y).data) := by
      rw [jsLower_data, rtrimL_map_jsCharLower]
    rw [show (⟨(rtrimL Y.data).map jsCharLower⟩ : String)
        = ⟨rtrimL ((jsLower Y).data)⟩ from congrArg String.mk hcomm]
    exact jsTrim_rtrim ((jsLower Y).data)
  simp only [inferIntentDeterministic]
  rw [ht]
  rw [show scrollTest ⟨"fill ".data ++ (X.data.map jsCharLower ++
      '=' :: (rtrimL Y.data).map jsCharLower)⟩ = false from rfl]
  rw [show hasPref "open ".data (⟨"fill ".data ++ (X.data.map jsCharLower ++
      '=' :: (rtrimL Y.data).map jsCharLower)⟩ : String).data = false from rfl]
  rw [show hasPref "search ".data (⟨"fill ".data ++ (X.data.map jsCharLower ++
      '=' :: (rtrimL Y.data).map jsCharLower)⟩ : String).data = false from rfl]
  rw [hs1, hs2, hs3, hfm]
  simp [hval]
  rfl

/-- C7 witness: the amended theorem applied to `fill Name=John Smith `. -/
theorem C7_fill_lowercased_w :
    inferIntentDeterministic ("fill " ++ "Name" ++ "=" ++ "John Smith ") =
      some (.fillField "name" "john smith") :=
  C7_fill_lowercased "Name" "John Smith " (by decide) (by decide)
    (by decide) (by decide) (by decide) (by decide) (by decide) (by decide)

/-! ## Percent-encoding

`encodeURIComponent` percent-encodes the UTF-8 bytes of every character
outside `A-Z a-z 0-9 - _ . ! ~ * ' ( )`, using uppercase hex digits;
`pctDecode` models percent-decoding (as `decodeURIComponent` would
perform it, parsing UTF-8 byte sequences back into characters). -/

/-- The characters `encodeURIComponent` leaves unescaped. -/
def unresC (c : Char) : Bool :=
  ('A' ≤ c && c ≤ 'Z') || ('a' ≤ c && c ≤ 'z') || ('0' ≤ c && c ≤ '9') ||
  c == '-' || c == '_' || c == '.' || c == '!' || c == '~' || c == '*' ||
  c.toNat == 39 || c == '(' || c == ')'

/-- Uppercase hexadecimal digit for `n < 16`. -/
def hexDigit (n : Nat) : Char := if n < 10 then Char.ofNat (48 + n) else Char.ofNat (55 + n)

/-- UTF-8 bytes of a unicode scalar value. -/
def utf8Bytes (n : Nat) : List Nat :=
  if n < 0x80 then [n]
  else if n < 0x800 then [0xC0 + n / 64, 0x80 + n % 64]
  else if n < 0x10000 then [0xE0 + n / 4096, 0x80 + (n / 64) % 64, 0x80 + n % 64]
  else [0xF0 + n / 262144, 0x80 + (n / 4096) % 64, 0x80 + (n / 64) % 64, 0x80 + n % 64]

def pctByte (b : Nat) : List Char := ['%', hexDigit (b / 16), hexDigit (b % 16)]

def encChar (c : Char) : List Char :=
  if unresC c then [c] else ((utf8Bytes c.toNat).map pctByte).flatten

def encList : List Char → List Char
  | [] => []
  | c :: cs => encChar c ++ encList cs

def encodeURIComponent (s : String) : String := ⟨encList s.data⟩

def hexVal (c : Char) : Option Nat :=
  if '0' ≤ c && c ≤ '9' then some (c.toNat - 48)
  else if 'a' ≤ c && c ≤ 'f' then some (c.toNat - 87)
  else if 'A' ≤ c && c ≤ 'F' then some (c.toNat - 55)
  else none

def hexPair (h l : Char) : Option Nat :=
  match hexVal h, hexVal l with
  | some a, some b => some (a * 16 + b)
  | _, _ => none

/-- UTF-8 continuation byte range. -/
def isCont (b : Nat) : Bool := 0x80 ≤ b && b < 0xC0

/-- First phase of percent-decoding: lex the input into plain characters
(`Sum.inl`) and `%XY` bytes (`Sum.inr`); malformed escapes yield `none`. -/
def pctTokens : List Char → Option (List (Sum Char Nat))
  | [] => some []
  | c :: rest =>
    if c = '%' then
      match rest with
      | h :: l :: r =>
        match hexPair h l with
        | some b => (pctTokens r).map (fun t => Sum.inr b :: t)
        | none => none
      | _ => none
    else (pctTokens rest).map (fun t => Sum.inl c :: t)

/-- Second phase of percent-decoding: reassemble UTF-8 byte sequences into
scalar values, consuming one token per step.  The state is `none` between
characters, or `some (need, acc)` in the middle of a multi-byte sequence
still expecting `need` continuation bytes with accumulated value `acc`.
Plain characters pass through; malformed sequences yield `none`. -/
def utf8A : Option (Nat × Nat) → List (Sum Char Nat) → Option (List Char)
  | none, [] => some []
  | some _, [] => none
  | none, .inl c :: ts => (utf8A none ts).map (fun t => c :: t)
  | some _, .inl _ :: _ => none
  | none, .inr b :: ts =>
    if b < 0x80 then (utf8A none ts).map (fun t => Char.ofNat b :: t)
    else if b < 0xC0 then none
    else if b < 0xE0 then utf8A (some (1, b - 0xC0)) ts
    else if b < 0xF0 then utf8A (some (2, b - 0xE0)) ts
    else if b < 0xF8 then utf8A (some (3, b - 0xF0)) ts
    else none
  | some (need, acc), .inr b :: ts =>
    if isCont b then
      if need = 1 then
        if Nat.isValidChar (acc * 64 + (b - 0x80)) then
          (utf8A none ts).map (fun t => Char.ofNat (acc * 64 + (b - 0x80)) :: t)
        else none
      else utf8A (some (need - 1, acc * 64 + (b - 0x80))) ts
    else none

/-- Percent-decoding, as `decodeURIComponent` performs it: `%XY` groups are
decoded to bytes and UTF-8 byte sequences to their scalar values; plain
characters pass through; malformed input yields `none`. -/
def pctDecode (cs : List Char) : Option (List Char) :=
  (pctTokens cs).bind (utf8A none)

/-- The token sequence the encoder conceptually produces. -/
def encTokens (c : Char) : List (Sum Char Nat) :=
  if unresC c then [Sum.inl c] else (utf8Bytes c.toNat).map Sum.inr

/-! ## The percent-encoding round trip -/


theorem hexVal_hexDigit : ∀ n, n < 16 → hexVal (hexDigit n) = some n := by decide

theorem hexPair_hexDigit {b : Nat} (h : b < 256) :
    hexPair (hexDigit (b / 16)) (hexDigit (b % 16)) = some b := by
  rw [hexPair, hexVal_hexDigit _ (by omega), hexVal_hexDigit _ (by omega)]
  simp
  omega

theorem pctTokens_plain {c : Char} (hc : ¬(c = '%')) (rest : List Char) :
    pctTokens (c :: rest) = (pctTokens rest).map (fun t => Sum.inl c :: t) := by
  conv_lhs => rw [pctTokens.eq_def]
  simp only [hc, if_false]

theorem pctTokens_pctByte {b : Nat} (hb : b < 256) (rest : List Char) :
    pctTokens (pctByte b ++ rest) =
      (pctTokens rest).map (fun t => Sum.inr b :: t) := by
  show pctTokens ('%' :: hexDigit (b / 16) :: hexDigit (b % 16) :: rest) = _
  conv_lhs => rw [pctTokens.eq_def]
  simp only [hexPair_hexDigit hb, reduceIte]

theorem pctTokens_bytes {L : List Nat} (hL : ∀ b ∈ L, b < 256) (rest : List Char) :
    pctTokens ((L.map pctByte).flatten ++ rest) =
      (pctTokens rest).map (fun t => L.map Sum.inr ++ t) := by
  induction L with
  | nil => simp
  | cons b bs ih =>
    simp only [List.map_cons, List.flatten_cons, List.append_assoc]
    rw [pctTokens_pctByte (hL b (by simp)), ih (fun x hx => hL x (by simp [hx]))]
    cases pctTokens rest <;> simp

theorem utf8Bytes_lt {n : Nat} (h : n < 0x110000) : ∀ b ∈ utf8Bytes n, b < 256 := by
  intro b hb
  unfold utf8Bytes at hb
  split_ifs at hb <;> simp at hb <;> omega

theorem char_toNat_lt (c : Char) : c.toNat < 0x110000 := by
  have he : c.toNat = c.val.toNat := rfl
  rcases c.valid with h | ⟨h1, h2⟩ <;> rw [he] <;> omega

theorem char_isValid (c : Char) : Nat.isValidChar c.toNat := c.valid

theorem pctTokens_encChar (c : Char) (rest : List Char) :
    pctTokens (encChar c ++ rest) =
      (pctTokens rest).map (fun t => encTokens c ++ t) := by
  by_cases hu : unresC c
  · have hne : ¬(c = '%') := by
      intro e
      rw [e] at hu
      exact absurd hu (by decide)
    simp [encChar, encTokens, hu, pctTokens_plain hne]
  · simp only [encChar, encTokens, hu, Bool.false_eq_true, if_false]
    exact pctTokens_bytes (utf8Bytes_lt (char_toNat_lt c)) rest

theorem utf8A_inl (c : Char) (ts : List (Sum Char Nat)) :
    utf8A none (Sum.inl c :: ts) = (utf8A none ts).map (fun t => c :: t) := rfl

theorem utf8A_cons_inr (b : Nat) (ts : List (Sum Char Nat)) :
    utf8A none (Sum.inr b :: ts) =
      if b < 0x80 then (utf8A none ts).map (fun t => Char.ofNat b :: t)
      else if b < 0xC0 then none
      else if b < 0xE0 then utf8A (some (1, b - 0xC0)) ts
      else if b < 0xF0 then utf8A (some (2, b - 0xE0)) ts
      else if b < 0xF8 then utf8A (some (3, b - 0xF0)) ts
      else none := rfl

theorem utf8A_pending (need acc b : Nat) (ts : List (Sum Char Nat)) :
    utf8A (some (need, acc)) (Sum.inr b :: ts) =
      if isCont b then
        if need = 1 then
          if Nat.isValidChar (acc * 64 + (b - 0x80)) then
            (utf8A none ts).map (fun t => Char.ofNat (acc * 64 + (b - 0x80)) :: t)
          else none
        else utf8A (some (need - 1, acc * 64 + (b - 0x80))) ts
      else none := rfl

theorem utf8A_encTokens (c : Char) (ts : List (Sum Char Nat)) :
    utf8A none (encTokens c ++ ts) = (utf8A none ts).map (fun t => c :: t) := by
  by_cases hu : unresC c
  · simp only [encTokens, hu, if_true, List.cons_append, List.nil_append]
    rw [utf8A.eq_def]
  · simp only [encTokens, hu, Bool.false_eq_true, if_false]
    by_cases h1 : c.toNat < 0x80
    · rw [show utf8Bytes c.toNat = [c.toNat] by unfold utf8Bytes; rw [if_pos h1]]
      simp only [List.map_cons, List.map_nil, List.cons_append, List.nil_append]
      rw [utf8A.eq_def]
      simp only [h1, if_true, Char.ofNat_toNat]
    · by_cases h2 : c.toNat < 0x800
      · rw [show utf8Bytes c.toNat = [0xC0 + c.toNat / 64, 0x80 + c.toNat % 64] by
          unfold utf8Bytes; rw [if_neg h1, if_pos h2]]
        simp only [List.map_cons, List.map_nil, List.cons_append, List.nil_append]
        rw [utf8A_cons_inr]
        rw [if_neg (by omega), if_neg (by omega), if_pos (by omega)]
        rw [utf8A_pending]
        rw [if_pos (by simp [isCont]; omega), if_pos rfl,
          if_pos (by
            have := char_isValid c
            have he : 0xC0 + c.toNat / 64 - 0xC0 = c.toNat / 64 := by omega
            have he2 : c.toNat / 64 * 64 + (0x80 + c.toNat % 64 - 0x80) = c.toNat := by
              omega
            rw [he, he2]
            exact this)]
        have he2 : (0xC0 + c.toNat / 64 - 0xC0) * 64 + (0x80 + c.toNat % 64 - 0x80)
            = c.toNat := by omega
        rw [he2, Char.ofNat_toNat]
      · by_cases h3 : c.toNat < 0x10000
        · rw [show utf8Bytes c.toNat = [0xE0 + c.toNat / 4096,
              0x80 + c.toNat / 64 % 64, 0x80 + c.toNat % 64] by
            unfold utf8Bytes; rw [if_neg h1, if_neg h2, if_pos h3]]
          simp only [List.map_cons, List.map_nil, List.cons_append, List.nil_append]
          rw [utf8A_cons_inr]
          rw [if_neg (by omega), if_neg (by omega), if_neg (by omega), if_pos (by omega)]
          rw [utf8A_pending]
          rw [if_pos (by simp [isCont]; omega), if_neg (by omega)]
          rw [utf8A_pending]
          have he2 : ((0xE0 + c.toNat / 4096 - 0xE0) * 64 +
              (0x80 + c.toNat / 64 % 64 - 0x80)) * 64 + (0x80 + c.toNat % 64 - 0x80)
              = c.toNat := by omega
          rw [if_pos (by simp [isCont]; omega), if_pos rfl, if_pos (by
            rw [he2]
            exact char_isValid c)]
          rw [he2, Char.ofNat_toNat]
        · have h4 : c.toNat < 0x110000 := char_toNat_lt c
          rw [show utf8Bytes c.toNat = [0xF0 + c.toNat / 262144,
              0x80 + c.toNat / 4096 % 64, 0x80 + c.toNat / 64 % 64,
              0x80 + c.toNat % 64] by
            unfold utf8Bytes; rw [if_neg h1, if_neg h2, if_neg h3]]
          simp only [List.map_cons, List.map_nil, List.cons_append, List.nil_append]
          rw [utf8A_cons_inr]
          rw [if_neg (by omega), if_neg (by omega), if_neg (by omega),
            if_neg (by omega), if_pos (by omega)]
          rw [utf8A_pending]
          rw [if_pos (by simp [isCont]; omega), if_neg (by omega)]
          rw [utf8A_pending]
          rw [if_pos (by simp [isCont]; omega), if_neg (by omega)]
          rw [utf8A_pending]
          have he2 : (((0xF0 + c.toNat / 262144 - 0xF0) * 64 +
              (0x80 + c.toNat / 4096 % 64 - 0x80)) * 64 +
              (0x80 + c.toNat / 64 % 64 - 0x80)) * 64 + (0x80 + c.toNat % 64 - 0x80)
              = c.toNat := by omega
          rw [if_pos (by simp [isCont]; omega), if_pos rfl, if_pos (by
            rw [he2]
            exact char_isValid c)]
          rw [he2, Char.ofNat_toNat]

theorem pctDecode_encList (l : List Char) : pctDecode (encList l) = some l := by
  have htok : pctTokens (encList l) = some (l.flatMap encTokens) := by
    have haux : ∀ (rest : List Char), pctTokens (encList l ++ rest) =
        (pctTokens rest).map (fun t => l.flatMap encTokens ++ t) := by
      induction l with
      | nil =>
        intro rest
        simp [encList]
      | cons c cs ih =>
        intro rest
        show pctTokens ((encChar c ++ encList cs) ++ rest) = _
        rw [List.append_assoc, pctTokens_encChar, ih]
        cases pctTokens rest <;> simp
    have h1 := haux []
    rw [List.append_nil] at h1
    rw [h1]
    simp [pctTokens]
  have hasm : ∀ (m : List Char), utf8A none (m.flatMap encTokens) = some m := by
    intro m
    induction m with
    | nil => rfl
    | cons c cs ih =>
      show utf8A none (encTokens c ++ cs.flatMap encTokens) = _
      rw [utf8A_encTokens, ih]
      rfl
  rw [pctDecode, htok]
  show utf8A none (l.flatMap encTokens) = some l
  exact hasm l

/-- The characters the encoder can emit are unreserved characters, `%`,
or hex digits — in particular never `?`, `&` or `=`. -/
theorem encList_safe {x : Char} : ∀ {l : List Char}, x ∈ encList l →
    x ≠ '?' ∧ x ≠ '&' ∧ x ≠ '=' := by
  intro l hx
  induction l with
  | nil => cases hx
  | cons c cs ih =>
    rcases List.mem_append.mp hx with h | h
    · by_cases hu : unresC c
      · rw [encChar, if_pos hu] at h
        rcases List.mem_singleton.mp h with rfl
        refine ⟨?_, ?_, ?_⟩ <;> rintro rfl <;> exact absurd hu (by decide)
      · rw [encChar, if_neg hu] at h
        rcases List.mem_flatten.mp h with ⟨L, hL, hxL⟩
        rcases List.mem_map.mp hL with ⟨b, hb, rfl⟩
        have hb256 : b < 256 := utf8Bytes_lt (char_toNat_lt c) b hb
        rcases hxL with _ | ⟨_, hxL⟩
        · exact ⟨by decide, by decide, by decide⟩
        · have hhex : ∀ m, m < 16 →
              hexDigit m ≠ '?' ∧ hexDigit m ≠ '&' ∧ hexDigit m ≠ '=' := by decide
          rcases hxL with _ | ⟨_, hxL⟩
          · exact hhex _ (by omega)
          · rcases hxL with _ | ⟨_, hxL⟩
            · exact hhex _ (by omega)
            · cases hxL
    · exact ih h

/-! ## URL query-parameter extraction (specification side)

The round-trip claim speaks of "the URL's `q` query parameter,
percent-decoded".  The extraction below is the specification-side reading
of a URL: everything after the first `?` is split on `&` and the first
`q=`-keyed parameter is taken. -/

def afterQmark : List Char → Option (List Char)
  | [] => none
  | c :: rest => if c = '?' then some rest else afterQmark rest

def splitAmp : List Char → List (List Char)
  | [] => [[]]
  | c :: rest =>
    if c = '&' then [] :: splitAmp rest
    else
      match splitAmp rest with
      | p :: ps => (c :: p) :: ps
      | [] => [[c]]

/-- The raw (still percent-encoded) value of the `q` parameter. -/
def getParamQ (url : String) : Option String :=
  match afterQmark url.data with
  | none => none
  | some qs =>
    ((splitAmp qs).filterMap (fun p => dropPref ['q', '='] p)).head?.map
      (fun l => (⟨l⟩ : String))

/-- The percent-decoded value of the `q` parameter. -/
def decodedQ (url : String) : Option String :=
  match getParamQ url with
  | none => none
  | some v => (pctDecode v.data).map (fun l => (⟨l⟩ : String))

theorem afterQmark_append {pre : List Char} (hpre : ∀ c ∈ pre, c ≠ '?')
    (rest : List Char) : afterQmark (pre ++ '?' :: rest) = some rest := by
  induction pre with
  | nil => simp [afterQmark]
  | cons c cs ih =>
    rw [List.cons_append, afterQmark, if_neg (hpre c (by simp))]
    exact ih fun d hd => hpre d (by simp [hd])

theorem splitAmp_no_amp : ∀ {l : List Char}, (∀ c ∈ l, c ≠ '&') →
    splitAmp l = [l] := by
  intro l hl
  induction l with
  | nil => rfl
  | cons c cs ih =>
    rw [splitAmp, if_neg (hl c (by simp)), ih fun d hd => hl d (by simp [hd])]

/-! ## Planner (src/background/index.ts)

The two regexes of `planRuleBased` are hand-translated:

* `/\b(https?:\/\/[^\s]+|[a-z0-9-]+\.[a-z]{2,})(\/\S*)?/i` — scanned left
  to right; at each position a word boundary is required, then the
  scheme-prefixed alternative is tried before the bare-domain alternative;
  `[a-z0-9-]+` is greedy with backtracking (longest run first, shrinking
  until `\.[a-z]{2,}` matches); the optional path group swallows
  `/`-prefixed non-space text.
* `/(?:search (?:for )?|find )(.*)/i` — scanned left to right, `search `
  (with optional `for `) tried before `find `, the capture running to the
  end of the line.
-/

/-- JS regex word character (`\w`), used for `\b`. -/
def isWordCh (c : Char) : Bool :=
  ('a' ≤ c && c ≤ 'z') || ('A' ≤ c && c ≤ 'Z') || ('0' ≤ c && c ≤ '9') || c == '_'

/-- `[a-z0-9-]` with the `i` flag. -/
def domCh (c : Char) : Bool :=
  ('a' ≤ c && c ≤ 'z') || ('A' ≤ c && c ≤ 'Z') || ('0' ≤ c && c ≤ '9') || c == '-'

/-- `[a-z]` with the `i` flag. -/
def letCh (c : Char) : Bool := ('a' ≤ c && c ≤ 'z') || ('A' ≤ c && c ≤ 'Z')

/-- `[^\s]` / `\S`. -/
def nonSpaceCh (c : Char) : Bool := !wsC c

/-- `.` of a regex without the `s` flag. -/
def notNlCh (c : Char) : Bool := !nlC c

/-- The `https?:\/\/[^\s]+` alternative (with its trailing optional
`(\/\S*)?` group, which after the greedy `[^\s]+` always matches empty). -/
def tryHttp (cs : List Char) : Option (List Char) :=
  match dropPref "https://".data cs with
  | some t =>
    let run := t.takeWhile nonSpaceCh
    if run.isEmpty then none else some ("https://".data ++ run)
  | none =>
    match dropPref "http://".data cs with
    | some t =>
      let run := t.takeWhile nonSpaceCh
      if run.isEmpty then none else some ("http://".data ++ run)
    | none => none

/-- After a candidate `[a-z0-9-]+` run: require `\.[a-z]{2,}`, then the
optional `(\/\S*)?` path group. -/
def domTailAt : List Char → Option (List Char)
  | [] => none
  | c :: rest =>
    if c = '.' then
      let letters := rest.takeWhile letCh
      if 2 ≤ letters.length then
        let path :=
          match rest.drop letters.length with
          | '/' :: pr => '/' :: pr.takeWhile nonSpaceCh
          | _ => []
        some ('.' :: letters ++ path)
      else none
    else none

/-- Backtracking over the greedy `[a-z0-9-]+`: try the longest run first,
then shrink. -/
def tryDomLen : Nat → List Char → Option (List Char)
  | 0, _ => none
  | len + 1, cs =>
    match domTailAt (cs.drop (len + 1)) with
    | some tailm => some (cs.take (len + 1) ++ tailm)
    | none => tryDomLen len cs

/-- The bare-domain alternative `[a-z0-9-]+\.[a-z]{2,}(\/\S*)?`. -/
def tryDom (cs : List Char) : Option (List Char) :=
  let run := cs.takeWhile domCh
  if run.isEmpty then none else tryDomLen run.length cs

/-- One position of the URL regex: the `\b` assertion (the word-character
status of the current character must differ from the previous one's),
then the two alternatives in order. -/
def tryUrlAt (prevWord : Bool) (cs : List Char) : Option (List Char) :=
  match cs with
  | [] => none
  | c :: _ =>
    if isWordCh c != prevWord then
      match tryHttp cs with
      | some m => some m
      | none => tryDom cs
    else none

def scanUrl : Bool → List Char → Option (List Char)
  | _, [] => none
  | prevWord, c :: rest =>
    match tryUrlAt prevWord (c :: rest) with
    | some m => some m
    | none => scanUrl (isWordCh c) rest

/-- `g.match(/\b(https?:\/\/[^\s]+|[a-z0-9-]+\.[a-z]{2,})(\/\S*)?/i)`,
returning `match[0]`. -/
def firstUrlMatch (g : String) : Option String :=
  (scanUrl false g.data).map (fun l => (⟨l⟩ : String))

/-- The keyword part of `/(?:search (?:for )?|find )(.*)/i` at one
position. -/
def searchKeyword (cs : List Char) : Option (List Char) :=
  match dropPref "search ".data cs with
  | some t =>
    some (match dropPref "for ".data t with
      | some t2 => t2
      | none => t)
  | none =>
    match dropPref "find ".data cs with
    | some t => some t
    | none => none

def scanSearch : List Char → Option (List Char)
  | [] => none
  | c :: rest =>
    match searchKeyword (c :: rest) with
    | some tail => some (tail.takeWhile notNlCh)
    | none => scanSearch rest

/-- `g.match(/(?:search (?:for )?|find )(.*)/i)`, returning `match[1]`. -/
def searchCapture (g : String) : Option String :=
  (scanSearch g.data).map (fun l => (⟨l⟩ : String))

inductive ScrollTo where
  | top
  | bottom
deriving DecidableEq, Repr

/-- The `Action` union of src/background/index.ts (field optionality as
checked by the executor's guards; the planner constructs the fields it
needs).  The JS number `0.8` is modelled as the rational `4/5`. -/
inductive Action where
  | click (selector : Option String) (text : Option String)
  | type (selector : Option String) (label : Option String) (value : String)
  | selectOption (selector : Option String) (optionText : Option String)
  | setDate (selector : Option String) (valueISO : String)
  | submit (selector : Option String)
  | scroll (amount : Option ℚ) (toEdge : Option ScrollTo)
  | navigate (url : String)
  | summary
deriving DecidableEq, Repr

/-- `https://www.google.com/search?q=${encodeURIComponent(q)}`. -/
def googleSearch (q : String) : String :=
  "https://www.google.com/search?q=" ++ encodeURIComponent q

/-- `planRuleBased` of src/background/index.ts.  Note that the goal is
lowercased before both regexes run, so the captured search query is
lowercase; only the final default branch encodes the original `goal`. -/
def planRuleBased (goal : String) : List Action :=
  let g := jsLower goal
  match firstUrlMatch g with
  | some m =>
    [.navigate (if hasPref "http".data m.data then m else "https://" ++ m)]
  | none =>
    match searchCapture g with
    | some cap => [.navigate (googleSearch (jsTrim cap))]
    | none =>
      if strIncl g "summarize" || strIncl g "summary" then [.summary]
      else if strIncl g "scroll down" then [.scroll (some (4 / 5)) none]
      else if strIncl g "scroll up" then [.scroll (some (-(4 / 5))) none]
      else [.navigate (googleSearch goal)]

/-- An element of the JSON array the language-model path parses: either a
`SEARCH` pseudo-action carrying a query, or an ordinary action. -/
inductive RawAction where
  | searchQ (query : String)
  | act (a : Action)
deriving DecidableEq

/-- The `SEARCH`-to-`NAVIGATE` normalization inside `planWithLLM` (applied
only when the query is truthy, i.e. non-empty). -/
def normalizeRaw : RawAction → RawAction
  | .searchQ q => if q = "" then .searchQ q else .act (.navigate (googleSearch q))
  | .act a => .act a

/-- Outcome of the external language-model path, which the code can only
observe in four ways: no model object, session creation failed, a
response that parses as a JSON array, or a response whose parsing (or the
`.map` over a non-array) throws. -/
inductive LLMResult where
  | noLM
  | noSession
  | parsed (l : List RawAction)
  | parseFail
deriving DecidableEq

def LLMResult.emptyParsed : LLMResult → Bool
  | .parsed [] => true
  | _ => false

/-- `planWithLLM` of src/background/index.ts: the three failure modes fall
back to `planRuleBased`; a successfully parsed array is normalized and
returned as-is. -/
def planWithLLM (r : LLMResult) (goal : String) : List RawAction :=
  match r with
  | .noLM => (planRuleBased goal).map .act
  | .noSession => (planRuleBased goal).map .act
  | .parseFail => (planRuleBased goal).map .act
  | .parsed l => l.map normalizeRaw

/-- The decoded `q` parameter of the single NAVIGATE action of a plan
(specification-side view used by the round-trip claim). -/
def planQ (acts : List Action) : Option String :=
  match acts with
  | [Action.navigate u] => decodedQ u
  | _ => none

/-! ## Claim C1 — the planner and the empty plan -/

/-- C1, counterexample.  A language-model response that parses as the
well-formed empty JSON array is not a failure of the LLM path, so no
fallback runs, and the planner returns an empty plan. -/
theorem C1_cex : planWithLLM (.parsed []) "book a hotel in washington" = [] := rfl

/-- C1, amended.  The rule-based planner returns exactly one action for
every goal and never throws (it is a total function), and the LLM path
falls back to it on every failure (no model, no session, unparsable
response); the planner can only return an empty plan when the
language-model response parses as the empty JSON array, which is returned
as-is. -/
theorem C1_planner_nonempty (goal : String) (r : LLMResult)
    (h : r.emptyParsed = false) :
    (planRuleBased goal).length = 1 ∧ planWithLLM r goal ≠ [] := by
  have hlen : (planRuleBased goal).length = 1 := by
    simp only [planRuleBased]
    cases firstUrlMatch (jsLower goal) with
    | some m => rfl
    | none =>
      cases searchCapture (jsLower goal) with
      | some cap => rfl
      | none => split_ifs <;> rfl
  refine ⟨hlen, ?_⟩
  intro hemp
  cases r with
  | parsed l =>
    simp only [planWithLLM] at hemp
    rw [List.map_eq_nil_iff] at hemp
    rw [hemp] at h
    simp [LLMResult.emptyParsed] at h
  | noLM =>
    simp only [planWithLLM] at hemp
    rw [List.map_eq_nil_iff] at hemp
    rw [hemp] at hlen
    simp at hlen
  | noSession =>
    simp only [planWithLLM] at hemp
    rw [List.map_eq_nil_iff] at hemp
    rw [hemp] at hlen
    simp at hlen
  | parseFail =>
    simp only [planWithLLM] at hemp
    rw [List.map_eq_nil_iff] at hemp
    rw [hemp] at hlen
    simp at hlen

/-- C1 witness: the amended theorem at a concrete goal with no language
model available. -/
theorem C1_planner_nonempty_w :
    (planRuleBased "open nvidia.com").length = 1 ∧
      planWithLLM .noLM "open nvidia.com" ≠ [] :=
  C1_planner_nonempty "open nvidia.com" .noLM (by decide)

/-! ## Claim C6 — the search round trip -/

theorem scanSearch_cons (c : Char) (rest : List Char) :
    scanSearch (c :: rest) =
      match searchKeyword (c :: rest) with
      | some tail => some (tail.takeWhile notNlCh)
      | none => scanSearch rest := rfl

theorem scanSearch_at_search (lq : List Char) :
    scanSearch ("search for ".data ++ lq) = some (lq.takeWhile notNlCh) := by
  have hcs : "search for ".data ++ lq = "search ".data ++ ("for ".data ++ lq) := rfl
  have hk : searchKeyword ("search for ".data ++ lq) = some lq := by
    rw [searchKeyword, hcs, dropPref_append]
    simp only [dropPref_append]
  have h0 : "search for ".data ++ lq = 's' :: ("earch for ".data ++ lq) := rfl
  rw [h0, scanSearch_cons, ← h0, hk]

theorem dropPref_qeq (e : List Char) :
    dropPref ['q', '='] ('q' :: '=' :: e) = some e := by
  show dropPref ['q', '='] (['q', '='] ++ e) = some e
  exact dropPref_append _ _

theorem decodedQ_googleSearch (t : String) : decodedQ (googleSearch t) = some t := by
  have hdata : (googleSearch t).data
      = "https://www.google.com/search".data ++ '?' :: 'q' :: '=' :: encList t.data := by
    show ("https://www.google.com/search?q=" ++ encodeURIComponent t).data = _
    rw [String.data_append]
    rw [show "https://www.google.com/search?q=".data
      = "https://www.google.com/search".data ++ ['?', 'q', '='] from by decide]
    rw [List.append_assoc]
    rfl
  have hamp : ∀ c ∈ 'q' :: '=' :: encList t.data, c ≠ '&' := by
    intro c hc
    rcases List.mem_cons.mp hc with rfl | hc
    · decide
    · rcases List.mem_cons.mp hc with rfl | hc
      · decide
      · exact (encList_safe hc).2.1
  have hq : getParamQ (googleSearch t) = some ⟨encList t.data⟩ := by
    rw [getParamQ, hdata, afterQmark_append (by decide) _]
    simp only [splitAmp_no_amp hamp]
    simp [dropPref_qeq]
  rw [decodedQ, hq]
  show (pctDecode (encList t.data)).map (fun l => (⟨l⟩ : String)) = some t
  rw [pctDecode_encList]
  rfl

/-- C6, counterexample.  For the goal `search for Paris` the rule-based
planner lowercases the goal before capturing the query, so the `q`
parameter percent-decodes to `paris`, not to `Paris` as the claim
requires. -/
theorem C6_cex :
    planRuleBased "search for Paris" =
      [.navigate "https://www.google.com/search?q=paris"] ∧
    decodedQ "https://www.google.com/search?q=paris" = some "paris" ∧
    ("paris" : String) ≠ "Paris" := by
  refine ⟨rfl, rfl, by decide⟩

/-- C6, amended.  For every query string `Q` that contains no newline and
on which the URL branch does not fire, the NAVIGATE action produced for
the goal `search for Q` carries a URL whose `q` parameter, after
percent-decoding, equals `Q` *lowercased* and trimmed — not `Q`
exactly. -/
theorem C6_search_lowercased (Q : String)
    (hurl : firstUrlMatch (jsLower ("search for " ++ Q)) = none)
    (hnl : ∀ c ∈ Q.data, nlC c = false) :
    planQ (planRuleBased ("search for " ++ Q)) = some (jsTrim (jsLower Q)) := by
  have hg : jsLower ("search for " ++ Q) = "search for " ++ jsLower Q := by
    rw [jsLower_append]
    rw [show jsLower "search for " = "search for " from by decide]
  have hcap : searchCapture (jsLower ("search for " ++ Q)) = some (jsLower Q) := by
    rw [hg]
    show ((scanSearch ("search for " ++ jsLower Q).data).map _ : Option String) = _
    rw [show ("search for " ++ jsLower Q).data
      = "search for ".data ++ (jsLower Q).data from String.data_append _ _]
    rw [scanSearch_at_search]
    have htw : (jsLower Q).data.takeWhile notNlCh = (jsLower Q).data := by
      rw [List.takeWhile_eq_self_iff]
      intro x hx
      rcases List.mem_map.mp hx with ⟨d, hd, rfl⟩
      simp [notNlCh, nlC_jsCharLower, hnl d hd]
    rw [htw]
    rfl
  simp only [planRuleBased]
  rw [hurl, hcap]
  show planQ [Action.navigate (googleSearch (jsTrim (jsLower Q)))] = _
  rw [planQ]
  exact decodedQ_googleSearch _

/-- C6 witness: the amended theorem at the concrete query
`hotels in dc`. -/
theorem C6_search_lowercased_w :
    planQ (planRuleBased ("search for " ++ "hotels in dc")) =
      some "hotels in dc" :=
  C6_search_lowercased "hotels in dc" (by decide) (by decide)

/-! ## Agent coordinator (src/background/index.ts)

`runAgent` is embedded as a trace semantics.  The external world enters
through two parameters: `res j` is the boolean outcome of the
content-script round trip for step `j` (the value of `ok` obtained from
`sendToContent`, which never throws), and `cAt` is the point at which an
`AGENTS_CANCEL` request is interleaved — the handler can only run while
`runAgent` is suspended at an `await`, i.e. during some step `j`'s
execution, which `cAt = some j` models (`none`: no cancellation).  The
returned list is the ordered sequence of `AGENTS_UPDATE` broadcasts,
starting with the one issued by the `AGENTS_CREATE` handler. -/

inductive ACStatus where
  | idle
  | running
  | done
  | error
  | canceled
  | paused
deriving DecidableEq, Repr

/-- The `Agent` record of src/background/index.ts. -/
structure AgentRec where
  id : String
  name : String
  goal : String
  status : ACStatus
  createdAt : Nat
  progress : Nat
  tabId : Option Nat
  actions : List Action
  currentIndex : Nat
  logs : List String
  error : Option String
  canceled : Bool
deriving DecidableEq, Repr

def Action.kindName : Action → String
  | .click _ _ => "CLICK"
  | .type _ _ _ => "TYPE"
  | .selectOption _ _ => "SELECT_OPTION"
  | .setDate _ _ => "SET_DATE"
  | .submit _ => "SUBMIT"
  | .scroll _ _ => "SCROLL"
  | .navigate _ => "NAVIGATE"
  | .summary => "SUMMARY"

/-- `Math.round(k / total * 100)` for `0 ≤ k ≤ total` in integer
arithmetic: `⌊(k·100/total) + 1/2⌋`. -/
def round100 (total k : Nat) : Nat := (k * 200 + total) / (2 * total)

def errMsg : String := "content-script action failed"

/-- JS truthiness of an optional string. -/
def truthyS : Option String → Bool
  | none => false
  | some s => !(s == "")

/-- Whether one iteration of the `runAgent` loop sets `ok = true`:
NAVIGATE always succeeds (tab update plus bounded load wait), a CLICK
with neither a truthy selector nor truthy text leaves `ok` false, and
every other kind forwards the content script's response `r`. -/
def stepOk (a : Action) (r : Bool) : Bool :=
  match a with
  | .navigate _ => true
  | .click sel txt => if truthyS sel || truthyS txt then r else false
  | _ => r

structure StepOut where
  casts : List AgentRec
  fin : AgentRec
  aborted : Bool

/-- Loop-iteration start: `agent.currentIndex = i; agent.logs.push(...)`. -/
def stepStart (act : Action) (i : Nat) (a : AgentRec) : AgentRec :=
  { a with currentIndex := i, logs := a.logs ++ ["▶ " ++ act.kindName] }

/-- Effect of the `AGENTS_CANCEL` handler when it is interleaved during
step `i` (`cAt = some i`): it sets the canceled flag and the status. -/
def stepCancel (cAt : Option Nat) (i : Nat) (a : AgentRec) : AgentRec :=
  if cAt = some i then { a with canceled := true, status := .canceled } else a

/-- Loop-iteration success: progress update and log line. -/
def stepSucceed (total i : Nat) (a : AgentRec) : AgentRec :=
  { a with progress := round100 total (i + 1), logs := a.logs ++ ["✅ step ok"] }

/-- The catch block of the loop body. -/
def stepFail (a : AgentRec) : AgentRec :=
  { a with status := .error, error := some errMsg,
           logs := a.logs ++ ["❌ " ++ errMsg] }

/-- The `for` loop of `runAgent`: per iteration, the canceled flag is
checked first; the step is logged and broadcast; a cancellation arriving
during the step's `await` (`cAt = some i`) sets the flag and status and
broadcasts; on success progress is updated and broadcast; on failure the
catch block sets status/error/logs, broadcasts, and returns
(`aborted`). -/
def runSteps (res : Nat → Bool) (cAt : Option Nat) (total : Nat) :
    List Action → Nat → AgentRec → StepOut
  | [], _, a => ⟨[], a, false⟩
  | act :: rest, i, a =>
    if a.canceled then ⟨[], a, false⟩
    else
      let a1 := stepStart act i a
      let a2 := stepCancel cAt i a1
      let cbs : List AgentRec := if cAt = some i then [a2] else []
      if stepOk act (res i) then
        let a3 := stepSucceed total i a2
        let o := runSteps res cAt total rest (i + 1) a3
        ⟨a1 :: cbs ++ a3 :: o.casts, o.fin, o.aborted⟩
      else
        let a3 := stepFail a2
        ⟨a1 :: cbs ++ [a3], a3, true⟩

@[simp] theorem stepStart_progress (act i a) : (stepStart act i a).progress = a.progress := rfl

@[simp] theorem stepStart_status (act i a) : (stepStart act i a).status = a.status := rfl

@[simp] theorem stepStart_canceled (act i a) : (stepStart act i a).canceled = a.canceled := rfl

@[simp] theorem stepStart_currentIndex (act i a) : (stepStart act i a).currentIndex = i := rfl

@[simp] theorem stepStart_goal (act i a) : (stepStart act i a).goal = a.goal := rfl

@[simp] theorem stepStart_name (act i a) : (stepStart act i a).name = a.name := rfl

@[simp] theorem stepStart_createdAt (act i a) : (stepStart act i a).createdAt = a.createdAt := rfl

@[simp] theorem stepStart_tabId (act i a) : (stepStart act i a).tabId = a.tabId := rfl

@[simp] theorem stepStart_actions (act i a) : (stepStart act i a).actions = a.actions := rfl

@[simp] theorem stepStart_error (act i a) : (stepStart act i a).error = a.error := rfl

@[simp] theorem stepCancel_progress (cAt i a) : (stepCancel cAt i a).progress = a.progress := by
  rw [stepCancel]
  split <;> rfl

@[simp] theorem stepCancel_currentIndex (cAt i a) :
    (stepCancel cAt i a).currentIndex = a.currentIndex := by
  rw [stepCancel]
  split <;> rfl

@[simp] theorem stepCancel_goal (cAt i a) : (stepCancel cAt i a).goal = a.goal := by
  rw [stepCancel]
  split <;> rfl

@[simp] theorem stepCancel_name (cAt i a) : (stepCancel cAt i a).name = a.name := by
  rw [stepCancel]
  split <;> rfl

@[simp] theorem stepCancel_createdAt (cAt i a) :
    (stepCancel cAt i a).createdAt = a.createdAt := by
  rw [stepCancel]
  split <;> rfl

@[simp] theorem stepCancel_tabId (cAt i a) : (stepCancel cAt i a).tabId = a.tabId := by
  rw [stepCancel]
  split <;> rfl

@[simp] theorem stepCancel_actions (cAt i a) : (stepCancel cAt i a).actions = a.actions := by
  rw [stepCancel]
  split <;> rfl

@[simp] theorem stepCancel_error (cAt i a) : (stepCancel cAt i a).error = a.error := by
  rw [stepCancel]
  split <;> rfl

theorem stepCancel_pos {cAt : Option Nat} {i : Nat} (h : cAt = some i) (a : AgentRec) :
    (stepCancel cAt i a).status = .canceled ∧ (stepCancel cAt i a).canceled = true := by
  rw [stepCancel, if_pos h]
  exact ⟨rfl, rfl⟩

theorem stepCancel_neg {cAt : Option Nat} {i : Nat} (h : ¬cAt = some i) (a : AgentRec) :
    stepCancel cAt i a = a := by
  rw [stepCancel, if_neg h]

@[simp] theorem stepSucceed_progress (total i a) :
    (stepSucceed total i a).progress = round100 total (i + 1) := rfl

@[simp] theorem stepSucceed_status (total i a) : (stepSucceed total i a).status = a.status := rfl

@[simp] theorem stepSucceed_canceled (total i a) :
    (stepSucceed total i a).canceled = a.canceled := rfl

@[simp] theorem stepSucceed_currentIndex (total i a) :
    (stepSucceed total i a).currentIndex = a.currentIndex := rfl

@[simp] theorem stepSucceed_goal (total i a) : (stepSucceed total i a).goal = a.goal := rfl

@[simp] theorem stepSucceed_name (total i a) : (stepSucceed total i a).name = a.name := rfl

@[simp] theorem stepSucceed_createdAt (total i a) :
    (stepSucceed total i a).createdAt = a.createdAt := rfl

@[simp] theorem stepSucceed_tabId (total i a) : (stepSucceed total i a).tabId = a.tabId := rfl

@[simp] theorem stepSucceed_actions (total i a) :
    (stepSucceed total i a).actions = a.actions := rfl

@[simp] theorem stepSucceed_error (total i a) : (stepSucceed total i a).error = a.error := rfl

@[simp] theorem stepFail_progress (a) : (stepFail a).progress = a.progress := rfl

@[simp] theorem stepFail_status (a) : (stepFail a).status = ACStatus.error := rfl

@[simp] theorem stepFail_canceled (a) : (stepFail a).canceled = a.canceled := rfl

@[simp] theorem stepFail_currentIndex (a) : (stepFail a).currentIndex = a.currentIndex := rfl

@[simp] theorem stepFail_goal (a) : (stepFail a).goal = a.goal := rfl

@[simp] theorem stepFail_name (a) : (stepFail a).name = a.name := rfl

@[simp] theorem stepFail_createdAt (a) : (stepFail a).createdAt = a.createdAt := rfl

@[simp] theorem stepFail_tabId (a) : (stepFail a).tabId = a.tabId := rfl

@[simp] theorem stepFail_actions (a) : (stepFail a).actions = a.actions := rfl

@[simp] theorem stepFail_error (a) : (stepFail a).error = some errMsg := rfl

/-- The code after the loop: canceled agents end `canceled`, otherwise
`done` with progress 100. -/
def finalizeAgent (a : AgentRec) : AgentRec :=
  if a.canceled then { a with status := .canceled }
  else { a with status := .done, progress := 100 }

/-- The broadcasts `runAgent` itself issues (guard, `running`, the loop,
the final state — unless the loop returned from the catch block). -/
def runAgentCasts (res : Nat → Bool) (cAt : Option Nat) (a0 : AgentRec) :
    List AgentRec :=
  if a0.status = .canceled then []
  else
    let aR := { a0 with status := .running }
    let o := runSteps res cAt a0.actions.length
      (a0.actions.drop a0.currentIndex) a0.currentIndex aR
    if o.aborted then aR :: o.casts
    else aR :: o.casts ++ [finalizeAgent o.fin]

/-- All broadcasts observed for one agent: the `AGENTS_CREATE` handler's
broadcast of the idle agent, then `runAgent`'s. -/
def agentTrace (res : Nat → Bool) (cAt : Option Nat) (a0 : AgentRec) :
    List AgentRec :=
  a0 :: runAgentCasts res cAt a0

/-- The agent record the `AGENTS_CREATE` handler builds. -/
def mkAgent (id goal : String) (createdAt tabId : Nat) (actions : List Action) :
    AgentRec :=
  { id := id, name := "Agent " ++ ⟨id.data.take 4⟩, goal := goal, status := .idle,
    createdAt := createdAt, progress := 0, tabId := some tabId, actions := actions,
    currentIndex := 0,
    logs := ["🎯 Goal: " ++ goal, "📑 Steps: " ++ toString actions.length],
    error := none, canceled := false }

end BrowserCopilot

namespace BrowserCopilot

def progLe (x y : AgentRec) : Prop := x.progress ≤ y.progress

instance : IsTrans AgentRec progLe := ⟨fun _ _ _ h1 h2 => le_trans h1 h2⟩

theorem round100_mono (total : Nat) {j k : Nat} (h : j ≤ k) :
    round100 total j ≤ round100 total k :=
  Nat.div_le_div_right (by omega)

theorem round100_le_100 {total k : Nat} (h : k ≤ total) :
    round100 total k ≤ 100 := by
  rcases Nat.eq_zero_or_pos total with rfl | hpos
  · simp [round100]
  · have : round100 total k < 101 := by
      rw [round100, Nat.div_lt_iff_lt_mul (by omega)]
      nlinarith
    omega

theorem runSteps_master (res : Nat → Bool) (cAt : Option Nat) (total : Nat) :
    ∀ (acts : List Action) (i : Nat) (a : AgentRec),
      a.progress ≤ round100 total i → i + acts.length ≤ total →
      a.status ≠ .done →
      List.Chain' progLe (a :: (runSteps res cAt total acts i a).casts
        ++ [(runSteps res cAt total acts i a).fin]) ∧
      (runSteps res cAt total acts i a).fin.progress ≤ 100 ∧
      (∀ x ∈ (runSteps res cAt total acts i a).casts, x.status ≠ .done) ∧
      (runSteps res cAt total acts i a).fin.status ≠ .done := by
  intro acts
  induction acts with
  | nil =>
    intro i a hp hi hd
    refine ⟨?_, ?_, ?_, ?_⟩
    · simp [runSteps, List.chain'_cons, progLe]
    · exact le_trans hp (round100_le_100 (by omega))
    · simp [runSteps]
    · simpa [runSteps] using hd
  | cons act rest ih =>
    intro i a hp hi hd
    by_cases hc : a.canceled
    · refine ⟨?_, ?_, ?_, ?_⟩
      · simp [runSteps, hc, List.chain'_cons, progLe]
      · simpa [runSteps, hc] using le_trans hp (round100_le_100 (by omega))
      · simp [runSteps, hc]
      · simpa [runSteps, hc] using hd
    · have hlen : i + 1 + rest.length ≤ total := by
        simp at hi
        omega
      have hple : a.progress ≤ round100 total (i + 1) :=
        le_trans hp (round100_mono total (by omega))
      by_cases hok : stepOk act (res i)
      · have hstat : (stepSucceed total i (stepCancel cAt i (stepStart act i a))).status
            ≠ ACStatus.done := by
          by_cases hcat : cAt = some i
          · simp [(stepCancel_pos hcat _).1]
          · simp [stepCancel_neg hcat]
            exact hd
        obtain ⟨ch, hf100, hnd, hfnd⟩ :=
          ih (i + 1) (stepSucceed total i (stepCancel cAt i (stepStart act i a)))
            (by simp) hlen hstat
        by_cases hcat : cAt = some i
        · simp only [runSteps]
          rw [if_neg hc, if_pos hok, if_pos hcat]
          refine ⟨?_, hf100, ?_, hfnd⟩
          · simp only [List.singleton_append, List.cons_append]
            refine List.chain'_cons.mpr ⟨by simp [progLe], ?_⟩
            refine List.chain'_cons.mpr ⟨by simp [progLe], ?_⟩
            refine List.chain'_cons.mpr ⟨?_, ch⟩
            show (stepCancel cAt i (stepStart act i a)).progress ≤ _
            simpa using hple
          · intro x hx
            simp only [List.singleton_append, List.cons_append, List.mem_cons] at hx
            rcases hx with rfl | rfl | hx
            · simpa using hd
            · rw [(stepCancel_pos hcat _).1]
              decide
            · rcases List.mem_cons.mp hx with rfl | hx
              · exact hstat
              · exact hnd x hx
        · simp only [runSteps]
          rw [if_neg hc, if_pos hok, if_neg hcat]
          refine ⟨?_, hf100, ?_, hfnd⟩
          · simp only [List.nil_append, List.cons_append]
            refine List.chain'_cons.mpr ⟨by simp [progLe], ?_⟩
            refine List.chain'_cons.mpr ⟨?_, ch⟩
            show (stepStart act i a).progress ≤ _
            simpa using hple
          · intro x hx
            simp only [List.nil_append, List.cons_append, List.mem_cons] at hx
            rcases hx with rfl | rfl | hx
            · simpa using hd
            · exact hstat
            · exact hnd x hx
      · by_cases hcat : cAt = some i
        · simp only [runSteps]
          rw [if_neg hc, if_neg hok, if_pos hcat]
          refine ⟨?_, ?_, ?_, ?_⟩
          · simp only [List.singleton_append, List.cons_append]
            refine List.chain'_cons.mpr ⟨by simp [progLe], ?_⟩
            refine List.chain'_cons.mpr ⟨by simp [progLe], ?_⟩
            refine List.chain'_cons.mpr ⟨by simp [progLe], ?_⟩
            simp [List.chain'_cons, progLe]
          · simpa using le_trans hp (round100_le_100 (by omega))
          · intro x hx
            simp only [List.singleton_append, List.cons_append, List.mem_cons] at hx
            rcases hx with rfl | rfl | hx
            · simpa using hd
            · rw [(stepCancel_pos hcat _).1]
              decide
            · rcases List.mem_cons.mp hx with rfl | h0
              · simp
              · simp at h0
          · simp
        · simp only [runSteps]
          rw [if_neg hc, if_neg hok, if_neg hcat]
          refine ⟨?_, ?_, ?_, ?_⟩
          · simp only [List.nil_append, List.cons_append]
            refine List.chain'_cons.mpr ⟨by simp [progLe], ?_⟩
            refine List.chain'_cons.mpr ⟨by simp [progLe], ?_⟩
            simp [List.chain'_cons, progLe]
          · simpa using le_trans hp (round100_le_100 (by omega))
          · intro x hx
            simp only [List.nil_append, List.cons_append, List.mem_cons] at hx
            rcases hx with rfl | rfl | hx
            · simpa using hd
            · simp
            · simp at hx
          · simp

end BrowserCopilot

namespace BrowserCopilot

theorem round100_zero (total : Nat) : round100 total 0 = 0 := by
  rcases Nat.eq_zero_or_pos total with rfl | hpos
  · simp [round100]
  · rw [round100]
    simp
    exact Nat.div_eq_of_lt (by omega)

theorem finalize_progress_ge {a : AgentRec} (h : a.progress ≤ 100) :
    a.progress ≤ (finalizeAgent a).progress := by
  rw [finalizeAgent]
  split
  · exact le_refl _
  · exact h

/-! ## Claims C3, C4, C10 — the run loop as a trace -/

/-- C4, confirmed.  Across the ordered sequence of AGENTS_UPDATE
broadcasts emitted over one agent's lifetime (modelled by `agentTrace`
for any pattern of step outcomes `res` and any cancellation interleaving
`cAt`), the progress value is monotonically non-decreasing; the trace
starts at the created agent (progress 0 by hypothesis), and any
broadcast with status done carries progress 100. -/
theorem C4_progress_monotone (res : Nat → Bool) (cAt : Option Nat) (a0 : AgentRec)
    (h1 : a0.status = .idle) (h2 : a0.canceled = false)
    (h3 : a0.currentIndex = 0) (h4 : a0.progress = 0) :
    List.Pairwise progLe (agentTrace res cAt a0) ∧
    (agentTrace res cAt a0).head? = some a0 ∧
    (∀ x ∈ agentTrace res cAt a0, x.status = .done → x.progress = 100) := by
  have hne : ¬(a0.status = .canceled) := by
    rw [h1]
    decide
  set aR : AgentRec := { a0 with status := .running } with hAR
  set n : Nat := a0.actions.length with hn
  obtain ⟨ch, hf100, hnd, hfnd⟩ := runSteps_master res cAt n
    (a0.actions.drop a0.currentIndex) a0.currentIndex aR
    (by simp [hAR, h4]) (by rw [h3]; simp [hn]) (by simp [hAR])
  set o := runSteps res cAt n (a0.actions.drop a0.currentIndex) a0.currentIndex aR
    with ho
  have htr : agentTrace res cAt a0 =
      a0 :: (if o.aborted then aR :: o.casts
        else aR :: o.casts ++ [finalizeAgent o.fin]) := by
    rw [agentTrace, runAgentCasts, if_neg hne]
  have hchain2 : List.Chain' progLe ((aR :: o.casts) ++ [o.fin]) := by
    rw [List.cons_append]
    exact ch
  rw [List.chain'_append] at hchain2
  obtain ⟨chpre, _, hlast⟩ := hchain2
  have hall : List.Pairwise progLe (agentTrace res cAt a0) ∧
      (∀ x ∈ agentTrace res cAt a0, x.status = .done → x.progress = 100) := by
    rw [htr]
    by_cases hab : o.aborted
    · rw [if_pos hab]
      constructor
      · rw [← List.chain'_iff_pairwise]
        refine List.chain'_cons.mpr ⟨?_, chpre⟩
        show a0.progress ≤ aR.progress
        simp [hAR]
      · intro x hx
        rcases List.mem_cons.mp hx with rfl | hx
        · intro he
          rw [h1] at he
          cases he
        · rcases List.mem_cons.mp hx with rfl | hx
          · intro he
            simp [hAR] at he
          · intro he
            exact absurd he (hnd x hx)
    · rw [if_neg hab]
      constructor
      · rw [← List.chain'_iff_pairwise]
        have hch : List.Chain' progLe ((aR :: o.casts) ++ [finalizeAgent o.fin]) := by
          rw [List.chain'_append]
          refine ⟨chpre, by simp [List.Chain'], ?_⟩
          intro x hxl y hy
          simp only [List.head?_cons, Option.mem_def, Option.some.injEq] at hy
          have hx2 := hlast x hxl o.fin (by simp)
          rw [← hy]
          exact le_trans hx2 (finalize_progress_ge hf100)
        rw [List.cons_append] at hch
        refine List.chain'_cons.mpr ⟨?_, hch⟩
        show a0.progress ≤ aR.progress
        simp [hAR]
      · intro x hx
        rcases List.mem_cons.mp hx with rfl | hx
        · intro he
          rw [h1] at he
          cases he
        · rw [List.cons_append] at hx
          rcases List.mem_cons.mp hx with rfl | hx
          · intro he
            simp [hAR] at he
          · rcases List.mem_append.mp hx with hx | hx
            · intro he
              exact absurd he (hnd x hx)
            · rcases List.mem_singleton.mp hx with rfl
              rw [finalizeAgent]
              split
              · intro he
                simp at he
              · intro _
                simp
  refine ⟨hall.1, ?_, hall.2⟩
  rw [htr]
  rfl

end BrowserCopilot

namespace BrowserCopilot

theorem runSteps_canceled {res cAt total} {a : AgentRec} (h : a.canceled = true)
    (acts : List Action) (i : Nat) :
    runSteps res cAt total acts i a = ⟨[], a, false⟩ := by
  cases acts <;> simp [runSteps, h]

theorem runSteps_cancel_master (res : Nat → Bool) (k total : Nat) :
    ∀ (acts : List Action) (i : Nat) (a : AgentRec),
      a.canceled = false →
      i ≤ k → k < i + acts.length →
      (∀ j, i ≤ j → j < k → stepOk (acts.getD (j - i) .summary) (res j) = true) →
      ∃ pre c post,
        (runSteps res (some k) total acts i a).casts = pre ++ c :: post ∧
        c.status = .canceled ∧
        (∀ x ∈ c :: post, x.status = .canceled ∨ x.status = .error) ∧
        ((runSteps res (some k) total acts i a).fin.status = .canceled ∨
          (runSteps res (some k) total acts i a).fin.status = .error) ∧
        (runSteps res (some k) total acts i a).fin.canceled = true ∧
        (∀ x ∈ (runSteps res (some k) total acts i a).casts, x.currentIndex ≤ k) ∧
        (runSteps res (some k) total acts i a).fin.currentIndex ≤ k := by
  intro acts
  induction acts with
  | nil =>
    intro i a _ _ hk _
    simp at hk
    omega
  | cons act rest ih =>
    intro i a hc hik hk hsucc
    by_cases hieq : i = k
    · subst hieq
      have hcat : (some i : Option Nat) = some i := rfl
      have hcanstat := stepCancel_pos hcat (stepStart act i a)
      by_cases hok : stepOk act (res i)
      · simp only [runSteps]
        rw [if_neg (by simp [hc]), if_pos hok]
        rw [if_true]
        rw [runSteps_canceled (by simp [hcanstat.2])]
        refine ⟨[stepStart act i a], stepCancel (some i) i (stepStart act i a),
          [stepSucceed total i (stepCancel (some i) i (stepStart act i a))],
          by simp, hcanstat.1, ?_, ?_, ?_, ?_, ?_⟩
        · intro x hx
          rcases List.mem_cons.mp hx with rfl | hx
          · exact Or.inl hcanstat.1
          · rcases List.mem_cons.mp hx with rfl | hx
            · exact Or.inl (by simp [hcanstat.1])
            · simp at hx
        · exact Or.inl (by simp [hcanstat.1])
        · simp [hcanstat.2]
        · intro x hx
          rcases List.mem_cons.mp hx with rfl | hx
          · simp
          · rcases List.mem_cons.mp hx with rfl | hx
            · simp
            · rcases List.mem_cons.mp hx with rfl | hx
              · simp
              · simp at hx
        · simp
      · simp only [runSteps]
        rw [if_neg (by simp [hc]), if_neg hok]
        rw [if_true]
        refine ⟨[stepStart act i a], stepCancel (some i) i (stepStart act i a),
          [stepFail (stepCancel (some i) i (stepStart act i a))],
          by simp, hcanstat.1, ?_, ?_, ?_, ?_, ?_⟩
        · intro x hx
          rcases List.mem_cons.mp hx with rfl | hx
          · exact Or.inl hcanstat.1
          · rcases List.mem_cons.mp hx with rfl | hx
            · exact Or.inr (by simp)
            · simp at hx
        · exact Or.inr (by simp)
        · simp [hcanstat.2]
        · intro x hx
          rcases List.mem_cons.mp hx with rfl | hx
          · simp
          · rcases List.mem_cons.mp hx with rfl | hx
            · simp
            · rcases List.mem_cons.mp hx with rfl | hx
              · simp
              · simp at hx
        · simp
    · have hilt : i < k := by omega
      have hcat : ¬((some k : Option Nat) = some i) := by
        simp
        omega
      have hok : stepOk act (res i) = true := by
        have := hsucc i (le_refl i) hilt
        simpa using this
      simp only [runSteps]
      rw [if_neg (by simp [hc]), if_pos hok, if_neg hcat]
      rw [stepCancel_neg hcat]
      obtain ⟨pre, c, post, hcasts, hcstat, hpost, hfstat, hfcan, hci, hfci⟩ :=
        ih (i + 1) (stepSucceed total i (stepStart act i a))
          (by simp [hc]) (by omega) (by simp at hk ⊢; omega)
          (by
            intro j hj1 hj2
            have := hsucc j (by omega) hj2
            have he : j - i = (j - (i + 1)) + 1 := by omega
            rw [he] at this
            simpa using this)
      refine ⟨stepStart act i a :: stepSucceed total i (stepStart act i a) :: pre,
        c, post, by simp [hcasts], hcstat, hpost, hfstat, hfcan, ?_, hfci⟩
      intro x hx
      rcases List.mem_cons.mp hx with rfl | hx
      · simp
        omega
      · rcases List.mem_cons.mp hx with rfl | hx
        · simp
          omega
        · exact hci x hx

end BrowserCopilot

namespace BrowserCopilot

theorem finalizeAgent_currentIndex (a : AgentRec) :
    (finalizeAgent a).currentIndex = a.currentIndex := by
  rw [finalizeAgent]
  split <;> rfl

theorem finalizeAgent_status_canceled {a : AgentRec} (h : a.canceled = true) :
    (finalizeAgent a).status = .canceled := by
  rw [finalizeAgent, if_pos h]

/-- C3, confirmed.  If a cancellation request arrives while the agent is
running (interleaved at the await of step `k`, `cAt = some k`, with the
earlier steps succeeding), the broadcast trace contains a state with
status canceled, every subsequent broadcast has status canceled or error
(never again running or done), and no later step of the plan runs: every
broadcast has `currentIndex ≤ k`, so at most the in-flight step `k`
completes. -/
theorem C3_cancellation (res : Nat → Bool) (k : Nat) (a0 : AgentRec)
    (h1 : a0.status = .idle) (h2 : a0.canceled = false)
    (h3 : a0.currentIndex = 0) (hk : k < a0.actions.length)
    (hsucc : ∀ j, j < k → stepOk (a0.actions.getD j .summary) (res j) = true) :
    ∃ pre c post, agentTrace res (some k) a0 = pre ++ c :: post ∧
      c.status = .canceled ∧
      (∀ x ∈ c :: post, x.status = .canceled ∨ x.status = .error) ∧
      (∀ x ∈ agentTrace res (some k) a0, x.currentIndex ≤ k) := by
  have hne : ¬(a0.status = .canceled) := by
    rw [h1]
    decide
  set aR : AgentRec := { a0 with status := .running } with hAR
  set n : Nat := a0.actions.length with hn
  obtain ⟨pre, c, post, hcasts, hcstat, hpost, hfstat, hfcan, hci, hfci⟩ :=
    runSteps_cancel_master res k n (a0.actions.drop a0.currentIndex)
      a0.currentIndex aR (by simp [hAR, h2]) (by rw [h3]; omega)
      (by rw [h3]; simpa using hk)
      (by
        intro j hj1 hj2
        rw [h3] at *
        simpa using hsucc j hj2)
  set o := runSteps res (some k) n (a0.actions.drop a0.currentIndex)
    a0.currentIndex aR with ho
  have htr : agentTrace res (some k) a0 =
      a0 :: (if o.aborted then aR :: o.casts
        else aR :: o.casts ++ [finalizeAgent o.fin]) := by
    rw [agentTrace, runAgentCasts, if_neg hne]
  by_cases hab : o.aborted
  · refine ⟨a0 :: aR :: pre, c, post, ?_, hcstat, hpost, ?_⟩
    · rw [htr, if_pos hab, hcasts]
      simp
    · intro x hx
      rw [htr, if_pos hab] at hx
      rcases List.mem_cons.mp hx with rfl | hx
      · omega
      · rcases List.mem_cons.mp hx with rfl | hx
        · show a0.currentIndex ≤ k
          omega
        · exact hci x hx
  · refine ⟨a0 :: aR :: pre, c, post ++ [finalizeAgent o.fin], ?_, hcstat, ?_, ?_⟩
    · rw [htr, if_neg hab, hcasts]
      simp
    · intro x hx
      rcases List.mem_cons.mp hx with rfl | hx
      · exact hpost x (List.mem_cons_self _ _)
      · rcases List.mem_append.mp hx with hx | hx
        · exact hpost x (List.mem_cons_of_mem _ hx)
        · rcases List.mem_singleton.mp hx with rfl
          exact Or.inl (finalizeAgent_status_canceled hfcan)
    · intro x hx
      rw [htr, if_neg hab] at hx
      rcases List.mem_cons.mp hx with rfl | hx
      · omega
      · rw [List.cons_append] at hx
        rcases List.mem_cons.mp hx with rfl | hx
        · show a0.currentIndex ≤ k
          omega
        · rcases List.mem_append.mp hx with hx | hx
          · exact hci x hx
          · rcases List.mem_singleton.mp hx with rfl
            rw [finalizeAgent_currentIndex]
            exact hfci

/-- C3 witness: the theorem at a concrete one-step agent canceled during
step 0. -/
theorem C3_cancellation_w :
    (mkAgent "c3" "g" 2 9 [Action.submit none]).status = .idle ∧
    (mkAgent "c3" "g" 2 9 [Action.submit none]).canceled = false ∧
    (mkAgent "c3" "g" 2 9 [Action.submit none]).currentIndex = 0 ∧
    0 < (mkAgent "c3" "g" 2 9 [Action.submit none]).actions.length ∧
    (∃ pre c post,
      agentTrace (fun _ => true) (some 0) (mkAgent "c3" "g" 2 9 [Action.submit none])
        = pre ++ c :: post ∧
      c.status = .canceled ∧
      (∀ x ∈ c :: post, x.status = .canceled ∨ x.status = .error) ∧
      (∀ x ∈ agentTrace (fun _ => true) (some 0)
        (mkAgent "c3" "g" 2 9 [Action.submit none]), x.currentIndex ≤ 0)) :=
  ⟨rfl, rfl, rfl, by decide,
   C3_cancellation (fun _ => true) 0 _ rfl rfl rfl (by decide)
     (fun j hj => absurd hj (Nat.not_lt_zero j))⟩

/-- C4 witness: the theorem at a concrete two-step agent whose steps all
succeed. -/
theorem C4_progress_monotone_w :
    (mkAgent "c4" "g" 3 4 [Action.submit none, Action.navigate "x"]).status = .idle ∧
    (mkAgent "c4" "g" 3 4 [Action.submit none, Action.navigate "x"]).canceled = false ∧
    (mkAgent "c4" "g" 3 4 [Action.submit none, Action.navigate "x"]).currentIndex = 0 ∧
    (mkAgent "c4" "g" 3 4 [Action.submit none, Action.navigate "x"]).progress = 0 ∧
    (List.Pairwise progLe (agentTrace (fun _ => true) none
      (mkAgent "c4" "g" 3 4 [Action.submit none, Action.navigate "x"])) ∧
     (agentTrace (fun _ => true) none
      (mkAgent "c4" "g" 3 4 [Action.submit none, Action.navigate "x"])).head?
        = some (mkAgent "c4" "g" 3 4 [Action.submit none, Action.navigate "x"]) ∧
     (∀ x ∈ agentTrace (fun _ => true) none
      (mkAgent "c4" "g" 3 4 [Action.submit none, Action.navigate "x"]),
        x.status = .done → x.progress = 100)) :=
  ⟨rfl, rfl, rfl, rfl,
   C4_progress_monotone (fun _ => true) none _ rfl rfl rfl rfl⟩

end BrowserCopilot

namespace BrowserCopilot

theorem runSteps_err_master (res : Nat → Bool) (total k : Nat) :
    ∀ (acts : List Action) (i : Nat) (a : AgentRec),
      a.canceled = false →
      i ≤ k → k < i + acts.length →
      (∀ j, i ≤ j → j < k → stepOk (acts.getD (j - i) .summary) (res j) = true) →
      stepOk (acts.getD (k - i) .summary) (res k) = false →
      (runSteps res none total acts i a).aborted = true ∧
      (∃ p, (runSteps res none total acts i a).casts
        = p ++ [(runSteps res none total acts i a).fin]) ∧
      (runSteps res none total acts i a).fin.status = .error ∧
      (runSteps res none total acts i a).fin.error = some errMsg ∧
      (runSteps res none total acts i a).fin.currentIndex = k ∧
      (runSteps res none total acts i a).fin.progress
        = (if i = k then a.progress else round100 total k) ∧
      (runSteps res none total acts i a).fin.goal = a.goal ∧
      (runSteps res none total acts i a).fin.name = a.name ∧
      (runSteps res none total acts i a).fin.createdAt = a.createdAt ∧
      (runSteps res none total acts i a).fin.tabId = a.tabId ∧
      (runSteps res none total acts i a).fin.actions = a.actions := by
  intro acts
  induction acts with
  | nil =>
    intro i a _ hik hk _ _
    simp at hk
    omega
  | cons act rest ih =>
    intro i a hc hik hk hsucc hfail
    have hcat : ¬((none : Option Nat) = some i) := by simp
    by_cases hieq : i = k
    · subst hieq
      have hfa : stepOk act (res i) = false := by simpa using hfail
      simp only [runSteps]
      rw [if_neg (by simp [hc]), if_neg (by simp [hfa]), if_neg hcat]
      rw [stepCancel_neg hcat]
      refine ⟨rfl, ⟨[stepStart act i a], by simp⟩, ?_, ?_, ?_, ?_, ?_, ?_, ?_, ?_, ?_⟩
      · simp
      · simp
      · simp
      · rw [if_true]
        simp
      · simp
      · simp
      · simp
      · simp
      · simp
    · have hilt : i < k := by omega
      have hok : stepOk act (res i) = true := by
        have := hsucc i (le_refl i) hilt
        simpa using this
      simp only [runSteps]
      rw [if_neg (by simp [hc]), if_pos hok, if_neg hcat]
      rw [stepCancel_neg hcat]
      obtain ⟨hab, ⟨p, hp⟩, hst, herr, hci, hprog, hgoal, hname, hcr, htab, hact⟩ :=
        ih (i + 1) (stepSucceed total i (stepStart act i a))
          (by simp [hc]) (by omega) (by simp at hk ⊢; omega)
          (by
            intro j hj1 hj2
            have := hsucc j (by omega) hj2
            have he : j - i = (j - (i + 1)) + 1 := by omega
            rw [he] at this
            simpa using this)
          (by
            have he : k - i = (k - (i + 1)) + 1 := by omega
            rw [he] at hfail
            simpa using hfail)
      refine ⟨hab,
        ⟨stepStart act i a :: stepSucceed total i (stepStart act i a) :: p,
          by simp [hp]⟩,
        hst, herr, hci, ?_, by simpa using hgoal, by simpa using hname,
        by simpa using hcr, by simpa using htab, by simpa using hact⟩
      rw [if_neg hieq]
      by_cases h2 : i + 1 = k
      · rw [if_pos h2] at hprog
        rw [hprog]
        simp [h2]
      · rw [if_neg h2] at hprog
        exact hprog

/-- C10, amended.  When step `k` of the run loop fails after steps
`0..k-1` succeeded, the trace ends in an error state that keeps the
goal, name, createdAt, tabId and actions of the agent, keeps the
progress value reached after the last successful step
(`round100 total k`, neither reset to 0 nor forced to 100), and sets
status, error and logs — but its currentIndex is `k`, the index of the
failing step, written at the top of the failing iteration, not the value
`k - 1` it had after the last successful step. -/
theorem C10_error_frame (res : Nat → Bool) (k : Nat) (a0 : AgentRec)
    (h1 : a0.status = .idle) (h2 : a0.canceled = false)
    (h3 : a0.currentIndex = 0) (h4 : a0.progress = 0)
    (hk : k < a0.actions.length)
    (hsucc : ∀ j, j < k → stepOk (a0.actions.getD j .summary) (res j) = true)
    (hfail : stepOk (a0.actions.getD k .summary) (res k) = false) :
    ∃ pre e, agentTrace res none a0 = pre ++ [e] ∧
      e.status = .error ∧ e.error = some errMsg ∧
      e.progress = round100 a0.actions.length k ∧
      e.currentIndex = k ∧
      e.goal = a0.goal ∧ e.name = a0.name ∧ e.createdAt = a0.createdAt ∧
      e.tabId = a0.tabId ∧ e.actions = a0.actions := by
  have hne : ¬(a0.status = .canceled) := by
    rw [h1]
    decide
  set aR : AgentRec := { a0 with status := .running } with hAR
  set n : Nat := a0.actions.length with hn
  obtain ⟨hab, ⟨p, hp⟩, hst, herr, hci, hprog, hgoal, hname, hcr, htab, hact⟩ :=
    runSteps_err_master res n k (a0.actions.drop a0.currentIndex)
      a0.currentIndex aR (by simp [hAR, h2]) (by rw [h3]; omega)
      (by rw [h3]; simpa using hk)
      (by
        intro j hj1 hj2
        rw [h3] at *
        simpa using hsucc j hj2)
      (by
        rw [h3] at *
        simpa using hfail)
  set o := runSteps res none n (a0.actions.drop a0.currentIndex)
    a0.currentIndex aR with ho
  have htr : agentTrace res none a0 =
      a0 :: (if o.aborted then aR :: o.casts
        else aR :: o.casts ++ [finalizeAgent o.fin]) := by
    rw [agentTrace, runAgentCasts, if_neg hne]
  refine ⟨a0 :: aR :: p, o.fin, ?_, hst, herr, ?_, hci,
    by simpa [hAR] using hgoal, by simpa [hAR] using hname,
    by simpa [hAR] using hcr, by simpa [hAR] using htab,
    by simpa [hAR] using hact⟩
  · rw [htr, if_pos hab, hp]
    simp
  · rw [hprog]
    by_cases h5 : a0.currentIndex = k
    · rw [if_pos h5]
      rw [← h5, h3]
      rw [round100_zero]
      simp [hAR, h4]
    · rw [if_neg h5]

/-- C10 witness: the amended theorem at a concrete one-step agent whose
single step fails. -/
theorem C10_error_frame_w :
    (mkAgent "cA" "g" 0 1 [Action.submit none]).status = .idle ∧
    (mkAgent "cA" "g" 0 1 [Action.submit none]).canceled = false ∧
    (mkAgent "cA" "g" 0 1 [Action.submit none]).currentIndex = 0 ∧
    (mkAgent "cA" "g" 0 1 [Action.submit none]).progress = 0 ∧
    0 < (mkAgent "cA" "g" 0 1 [Action.submit none]).actions.length ∧
    stepOk ((mkAgent "cA" "g" 0 1 [Action.submit none]).actions.getD 0 .summary)
      ((fun _ => false) 0) = false ∧
    (∃ pre e, agentTrace (fun _ => false) none (mkAgent "cA" "g" 0 1 [Action.submit none])
        = pre ++ [e] ∧
      e.status = .error ∧ e.error = some errMsg ∧
      e.progress = round100 (mkAgent "cA" "g" 0 1 [Action.submit none]).actions.length 0 ∧
      e.currentIndex = 0 ∧
      e.goal = (mkAgent "cA" "g" 0 1 [Action.submit none]).goal ∧
      e.name = (mkAgent "cA" "g" 0 1 [Action.submit none]).name ∧
      e.createdAt = (mkAgent "cA" "g" 0 1 [Action.submit none]).createdAt ∧
      e.tabId = (mkAgent "cA" "g" 0 1 [Action.submit none]).tabId ∧
      e.actions = (mkAgent "cA" "g" 0 1 [Action.submit none]).actions) :=
  ⟨rfl, rfl, rfl, rfl, by decide, rfl,
   C10_error_frame (fun _ => false) 0 _ rfl rfl rfl rfl (by decide)
     (fun j hj => absurd hj (Nat.not_lt_zero j)) rfl⟩

/-- C10, counterexample.  Two SUBMIT steps, the first succeeds and the
second fails: the broadcast after the last successful step (position 3
of the six-entry trace) has currentIndex 0, but the error state
(position 5) has currentIndex 1 — the error transition does not retain
the currentIndex the agent had after the last successful step. -/
theorem C10_cex :
    (agentTrace (fun j => j == 0) none
      (mkAgent "cB" "g" 0 1 [Action.submit none, Action.submit none])).length = 6 ∧
    ((agentTrace (fun j => j == 0) none
      (mkAgent "cB" "g" 0 1 [Action.submit none, Action.submit none])).getD 3
        (mkAgent "cB" "g" 0 1 [])).status = .running ∧
    ((agentTrace (fun j => j == 0) none
      (mkAgent "cB" "g" 0 1 [Action.submit none, Action.submit none])).getD 3
        (mkAgent "cB" "g" 0 1 [])).progress = 50 ∧
    ((agentTrace (fun j => j == 0) none
      (mkAgent "cB" "g" 0 1 [Action.submit none, Action.submit none])).getD 3
        (mkAgent "cB" "g" 0 1 [])).currentIndex = 0 ∧
    ((agentTrace (fun j => j == 0) none
      (mkAgent "cB" "g" 0 1 [Action.submit none, Action.submit none])).getD 5
        (mkAgent "cB" "g" 0 1 [])).status = .error ∧
    ((agentTrace (fun j => j == 0) none
      (mkAgent "cB" "g" 0 1 [Action.submit none, Action.submit none])).getD 5
        (mkAgent "cB" "g" 0 1 [])).progress = 50 ∧
    ((agentTrace (fun j => j == 0) none
      (mkAgent "cB" "g" 0 1 [Action.submit none, Action.submit none])).getD 5
        (mkAgent "cB" "g" 0 1 [])).currentIndex = 1 :=
  ⟨rfl, rfl, rfl, rfl, rfl, rfl, rfl⟩

end BrowserCopilot

namespace BrowserCopilot

/-! ## Content-script executor (src/content agent, part_006) -/

/-- An element as `executeAction` observes it: for SELECT_OPTION, the
nullable `textContent` of each of its option elements, in order. -/
structure DElem where
  options : List (Option String)

/-- The document as the executor queries it: `document.querySelector`,
`none` when the selector matches no element. -/
structure Dom where
  qsel : String → Option DElem

/-- The `CSS.escape` fallback of `executeAction`:
`s.replace(/["\\]/g, "\\$&")`. -/
def cssEsc (s : String) : String :=
  ⟨(s.data.map (fun c => if c = '"' ∨ c = '\\' then ['\\', c] else [c])).flatten⟩

/-- The selector the CLICK text fallback queries:
`[aria-label*="t" i], [title*="t" i]` for the escaped text `t`. -/
def ariaTitleSel (t : String) : String :=
  "[aria-label*=\"" ++ t ++ "\" i], [title*=\"" ++ t ++ "\" i]"

/-- The executor's response value `{ ok, result? }`. -/
structure ExecRes where
  ok : Bool
  result : Option String
deriving DecidableEq, Repr

/-- `executeAction` of the content agent.  The retry loop's try/catch
never rethrows (`{ok:false, result:e}` after the third attempt); as the
model is total, a single pass suffices.  Falsy-field guards (`!action.selector`
etc.) test both absence and the empty string. -/
def executeAction (d : Dom) : Action → ExecRes
  | .navigate _ => ⟨true, none⟩
  | .scroll _ _ => ⟨true, none⟩
  | .click sel txt =>
    let el0 : Option DElem :=
      match sel with
      | some s => if s = "" then none else d.qsel s
      | none => none
    let el : Option DElem :=
      match el0 with
      | some e => some e
      | none =>
        match txt with
        | some t => if t = "" then none else d.qsel (ariaTitleSel (cssEsc t))
        | none => none
    match el with
    | none => ⟨false, some "Element not found"⟩
    | some _ => ⟨true, none⟩
  | .type sel _ _ =>
    match sel with
    | none => ⟨false, some "Missing selector"⟩
    | some s =>
      if s = "" then ⟨false, some "Missing selector"⟩
      else
        match d.qsel s with
        | none => ⟨false, some "Input not found"⟩
        | some _ => ⟨true, none⟩
  | .setDate sel _ =>
    match sel with
    | none => ⟨false, some "Missing selector"⟩
    | some s =>
      if s = "" then ⟨false, some "Missing selector"⟩
      else
        match d.qsel s with
        | none => ⟨false, some "Date input not found"⟩
        | some _ => ⟨true, none⟩
  | .selectOption sel optTxt =>
    match sel with
    | none => ⟨false, some "Missing selector"⟩
    | some s =>
      if s = "" then ⟨false, some "Missing selector"⟩
      else
        match optTxt with
        | none => ⟨false, some "Missing optionText"⟩
        | some ot =>
          if ot = "" then ⟨false, some "Missing optionText"⟩
          else
            match d.qsel s with
            | none => ⟨false, some "Select not found"⟩
            | some e =>
              if e.options.any
                  (fun o => jsLower (jsTrim (o.getD "")) == jsLower (jsTrim ot))
              then ⟨true, none⟩
              else ⟨false, some "Option not found"⟩
  | .submit sel =>
    match d.qsel (jsOr (sel.getD "") "form") with
    | none => ⟨false, some "Form not found"⟩
    | some _ => ⟨true, none⟩
  | .summary => ⟨false, some "Unknown action type"⟩

/-- C2, counterexample.  A CLICK whose selector matches nothing still
returns `ok:true` when its `text` field is truthy and the aria-label or
title fallback query finds an element, so the claim fails for CLICK. -/
theorem C2_cex :
    (Dom.mk (fun s => if s = ariaTitleSel (cssEsc "Buy") then some ⟨[]⟩ else none)).qsel
      "#dead" = none ∧
    executeAction
      (Dom.mk (fun s => if s = ariaTitleSel (cssEsc "Buy") then some ⟨[]⟩ else none))
      (.click (some "#dead") (some "Buy")) = ⟨true, none⟩ :=
  ⟨rfl, rfl⟩

/-- C2, amended.  For a truthy selector that matches no element, TYPE,
SET_DATE, SELECT_OPTION and SUBMIT return `ok:false` with a reason, and
CLICK does too provided its text fallback also fails (text falsy, or the
aria-label/title query for the escaped text finds nothing); no branch
throws (the retry loop's catch encodes exceptions as `{ok:false}`
values, and the model is a total function). -/
theorem C2_dead_selector (d : Dom) (s : String) (txt lbl optTxt : Option String)
    (v iso : String)
    (hne : s ≠ "") (hdead : d.qsel s = none)
    (hfb : ∀ t, txt = some t → t = "" ∨ d.qsel (ariaTitleSel (cssEsc t)) = none) :
    executeAction d (.click (some s) txt) = ⟨false, some "Element not found"⟩ ∧
    executeAction d (.type (some s) lbl v) = ⟨false, some "Input not found"⟩ ∧
    executeAction d (.setDate (some s) iso) = ⟨false, some "Date input not found"⟩ ∧
    (executeAction d (.selectOption (some s) optTxt)).ok = false ∧
    (executeAction d (.selectOption (some s) optTxt)).result.isSome = true ∧
    executeAction d (.submit (some s)) = ⟨false, some "Form not found"⟩ := by
  have hclick : executeAction d (.click (some s) txt)
      = ⟨false, some "Element not found"⟩ := by
    cases txt with
    | none => simp [executeAction, hne, hdead]
    | some t =>
      rcases hfb t rfl with h | h
      · simp [executeAction, hne, hdead, h]
      · by_cases ht : t = ""
        · simp [executeAction, hne, hdead, ht]
        · simp [executeAction, hne, hdead, ht, h]
  have hselo : (executeAction d (.selectOption (some s) optTxt)).ok = false ∧
      (executeAction d (.selectOption (some s) optTxt)).result.isSome = true := by
    cases optTxt with
    | none => simp [executeAction, hne]
    | some ot =>
      by_cases ho : ot = ""
      · simp [executeAction, hne, ho]
      · simp [executeAction, hne, ho, hdead]
  refine ⟨hclick, ?_, ?_, hselo.1, hselo.2, ?_⟩
  · simp [executeAction, hne, hdead]
  · simp [executeAction, hne, hdead]
  · simp [executeAction, jsOr, hne, hdead]

/-- C2 witness: the amended theorem on a document with no elements. -/
theorem C2_dead_selector_w :
    ("#x" : String) ≠ "" ∧
    (Dom.mk (fun _ => none)).qsel "#x" = none ∧
    (executeAction (Dom.mk (fun _ => none)) (.click (some "#x") none)
      = ⟨false, some "Element not found"⟩ ∧
     executeAction (Dom.mk (fun _ => none)) (.type (some "#x") none "v")
      = ⟨false, some "Input not found"⟩ ∧
     executeAction (Dom.mk (fun _ => none)) (.setDate (some "#x") "2024-01-02")
      = ⟨false, some "Date input not found"⟩ ∧
     (executeAction (Dom.mk (fun _ => none)) (.selectOption (some "#x") (some "Opt"))).ok
      = false ∧
     (executeAction (Dom.mk (fun _ => none))
        (.selectOption (some "#x") (some "Opt"))).result.isSome = true ∧
     executeAction (Dom.mk (fun _ => none)) (.submit (some "#x"))
      = ⟨false, some "Form not found"⟩) :=
  ⟨by decide, rfl,
   C2_dead_selector (Dom.mk (fun _ => none)) "#x" none none (some "Opt") "v"
     "2024-01-02" (by decide) rfl (fun t h => nomatch h)⟩

end BrowserCopilot

namespace BrowserCopilot

/-! ## FILL_FIELD (src/content/index.ts) -/

/-- An input or textarea as the FILL_FIELD handler observes it: `id` and
`placeholder` are the empty string when absent (as in the DOM); `name`
is carried to record that the handler never consults it. -/
structure Field where
  id : String
  placeholder : String
  name : String
deriving DecidableEq, Repr

/-- The page as the handler queries it: `qsel` is
`document.querySelector` over the message selector, `fields` is
`$all("input,textarea")` in document order, and `lblFor i` is the
`textContent` of the first `label[for=i]` element (`none` when no such
label exists or its textContent is null). -/
structure Page where
  qsel : String → Option Field
  fields : List Field
  lblFor : String → Option String

/-- The string a FILL_FIELD label is matched against, per field:
`(lbl?.textContent || i.placeholder || "").toLowerCase()`, where `lbl`
is looked up only when the field's id is truthy.  The field's `name`
attribute does not occur. -/
def fieldName (p : Page) (f : Field) : String :=
  let lblTxt := if f.id = "" then "" else (p.lblFor f.id).getD ""
  jsLower (jsOr (jsOr lblTxt f.placeholder) "")

/-- The content script's reply value `{ ok, error? }`. -/
structure CsRes where
  ok : Bool
  error : Option String
deriving DecidableEq, Repr

/-- The FILL_FIELD branch of the content script's message listener:
resolve by selector when truthy, else (when the label is truthy) the
first input/textarea whose `fieldName` contains the lowercased label;
reply `{ok:false, error:"no input"}` when neither resolves. -/
def fillField (p : Page) (sel lbl : Option String) : CsRes :=
  let input : Option Field :=
    if truthyS sel then p.qsel (sel.getD "")
    else if truthyS lbl then
      p.fields.find? (fun f => strIncl (fieldName p f) (jsLower (lbl.getD "")))
    else none
  match input with
  | some _ => ⟨true, none⟩
  | none => ⟨false, some "no input"⟩

/-- C5, counterexample.  A TYPE action with a label but no selector is
rejected by the executor with "Missing selector": the executor performs
no label resolution at all.  Label resolution exists only in the
separate FILL_FIELD message handler, which matches the label against
label-element text or placeholder — a field whose `name` attribute
contains the label (but has no matching label or placeholder) is not
found, so `name` is not consulted either. -/
theorem C5_cex :
    executeAction (Dom.mk (fun _ => none)) (.type none (some "email") "x")
      = ⟨false, some "Missing selector"⟩ ∧
    fillField (Page.mk (fun _ => none) [⟨"", "Email address", "q"⟩] (fun _ => none))
      none (some "Email") = ⟨true, none⟩ ∧
    fillField (Page.mk (fun _ => none) [⟨"", "", "email"⟩] (fun _ => none))
      none (some "email") = ⟨false, some "no input"⟩ ∧
    strIncl (jsLower (Field.mk "" "" "email").name) (jsLower "email") = true :=
  ⟨rfl, rfl, rfl, rfl⟩

/-- C5, amended.  The executor's TYPE resolves only by selector: a falsy
selector fails with "Missing selector" whatever the label, and a truthy
selector succeeds or fails with "Input not found" by the query alone.
The selector-else-label resolution lives in the content script's
FILL_FIELD handler, whose label match is a case-insensitive substring
test against the field's label-element text, else its placeholder — the
name attribute is not consulted — failing with "no input" when nothing
resolves. -/
theorem C5_type_resolution (d : Dom) (p : Page) (lbl : Option String)
    (v : String) (s l : String) (hne : s ≠ "") (hl : l ≠ "") :
    executeAction d (.type none lbl v) = ⟨false, some "Missing selector"⟩ ∧
    executeAction d (.type (some s) lbl v)
      = (match d.qsel s with
         | some _ => ⟨true, none⟩
         | none => ⟨false, some "Input not found"⟩) ∧
    fillField p (some s) lbl
      = (match p.qsel s with
         | some _ => ⟨true, none⟩
         | none => ⟨false, some "no input"⟩) ∧
    ((∃ f ∈ p.fields, strIncl (fieldName p f) (jsLower l) = true) →
      (fillField p none (some l)).ok = true) ∧
    ((∀ f ∈ p.fields, strIncl (fieldName p f) (jsLower l) = false) →
      fillField p none (some l) = ⟨false, some "no input"⟩) := by
  have hts : truthyS (some s) = true := by
    simp [truthyS, hne]
  have htl : truthyS (some l) = true := by
    simp [truthyS, hl]
  have htn : truthyS none = false := rfl
  refine ⟨by simp [executeAction], ?_, ?_, ?_, ?_⟩
  · rcases hq : d.qsel s with _ | e <;> simp [executeAction, hne, hq]
  · rcases hq : p.qsel s with _ | f <;> simp [fillField, hts, hq]
  · rintro ⟨f, hf, hm⟩
    have hiss : (p.fields.find?
        (fun f => strIncl (fieldName p f) (jsLower l))).isSome :=
      List.find?_isSome.mpr ⟨f, hf, hm⟩
    rcases ho : p.fields.find? (fun f => strIncl (fieldName p f) (jsLower l))
      with _ | g
    · rw [ho] at hiss
      simp at hiss
    · simp [fillField, htn, htl, ho]
  · intro h
    have hnone : p.fields.find? (fun f => strIncl (fieldName p f) (jsLower l))
        = none :=
      List.find?_eq_none.mpr (fun f hf => by simp [h f hf])
    simp [fillField, htn, htl, hnone]

/-- C5 witness: the amended theorem on a one-field page whose placeholder
contains the label. -/
theorem C5_type_resolution_w :
    ("#a" : String) ≠ "" ∧ ("mail" : String) ≠ "" ∧
    (executeAction (Dom.mk (fun _ => none)) (.type none none "v")
      = ⟨false, some "Missing selector"⟩ ∧
     executeAction (Dom.mk (fun _ => none)) (.type (some "#a") none "v")
      = (match (Dom.mk (fun _ => none)).qsel "#a" with
         | some _ => ⟨true, none⟩
         | none => ⟨false, some "Input not found"⟩) ∧
     fillField (Page.mk (fun _ => none) [⟨"", "Email", "n"⟩] (fun _ => none))
        (some "#a") none
      = (match (Page.mk (fun _ => none) [⟨"", "Email", "n"⟩]
            (fun _ => none)).qsel "#a" with
         | some _ => ⟨true, none⟩
         | none => ⟨false, some "no input"⟩) ∧
     ((∃ f ∈ (Page.mk (fun _ => none) [⟨"", "Email", "n"⟩] (fun _ => none)).fields,
        strIncl (fieldName (Page.mk (fun _ => none) [⟨"", "Email", "n"⟩]
          (fun _ => none)) f) (jsLower "mail") = true) →
      (fillField (Page.mk (fun _ => none) [⟨"", "Email", "n"⟩] (fun _ => none))
        none (some "mail")).ok = true) ∧
     ((∀ f ∈ (Page.mk (fun _ => none) [⟨"", "Email", "n"⟩] (fun _ => none)).fields,
        strIncl (fieldName (Page.mk (fun _ => none) [⟨"", "Email", "n"⟩]
          (fun _ => none)) f) (jsLower "mail") = false) →
      fillField (Page.mk (fun _ => none) [⟨"", "Email", "n"⟩] (fun _ => none))
        none (some "mail") = ⟨false, some "no input"⟩)) :=
  ⟨by decide, by decide,
   C5_type_resolution (Dom.mk (fun _ => none))
     (Page.mk (fun _ => none) [⟨"", "Email", "n"⟩] (fun _ => none))
     none "v" "#a" "mail" (by decide) (by decide)⟩

end BrowserCopilot

namespace BrowserCopilot

/-! ## Page scanner (`extractElements`, part_006) -/

/-- A page element as `extractElements` observes it: the results of the
DOM reads `accName(el)`, `txt(el)` and `uniqueSelector(el)`, the anchor's
`href` (`none` for non-anchor elements), and — for the card pass — the
nullable `textContent` of the card's first h3/h2/h1 heading. -/
structure PElem where
  accN : String
  text : String
  selector : String
  href : Option String
  cardHead : Option String
deriving DecidableEq, Repr

/-- The `ElementDescriptor` record the scanner emits. -/
structure ElementDescriptor where
  role : String
  title : String
  selector : String
  href : Option String
  subtitle : Option String
deriving DecidableEq, Repr

/-- The scanner's `add` helper: skip the element when
`accName(el) || txt(el)` is empty, else emit a descriptor. -/
def addElem (role : String) (e : PElem) (subtitle : Option String) :
    Option ElementDescriptor :=
  let title := jsOr e.accN e.text
  if title = "" then none
  else some ⟨role, title, e.selector, e.href, subtitle⟩

/-- The de-duplication key `role|title|(href ?? selector)`. -/
def dedupeKey (i : ElementDescriptor) : String :=
  i.role ++ "|" ++ i.title ++ "|" ++ (i.href.getD i.selector)

/-- The `seen`-set filter at the end of `extractElements`. -/
def dedupeGo (seen : List String) : List ElementDescriptor → List ElementDescriptor
  | [] => []
  | i :: rest =>
    if dedupeKey i ∈ seen then dedupeGo seen rest
    else i :: dedupeGo (dedupeKey i :: seen) rest

/-- The document as the scanner queries it: the full result lists of the
six `querySelectorAll` calls, in document order. -/
structure ScanDoc where
  links : List PElem
  buttons : List PElem
  inputs : List PElem
  selects : List PElem
  textareas : List PElem
  cards : List PElem

/-- `extractElements`: six capped category passes (each dropping
elements with an empty title), then de-duplication. -/
def extractElements (d : ScanDoc) : List ElementDescriptor :=
  let items : List ElementDescriptor :=
    (d.links.take 200).filterMap (fun a => addElem "link" a (some a.text)) ++
    (d.buttons.take 200).filterMap (fun b => addElem "button" b none) ++
    (d.inputs.take 100).filterMap (fun i => addElem "input" i none) ++
    (d.selects.take 50).filterMap (fun s => addElem "select" s none) ++
    (d.textareas.take 50).filterMap (fun t => addElem "textarea" t none) ++
    (d.cards.take 100).filterMap (fun c =>
      let title := jsTrim (jsOr (c.cardHead.getD "") c.accN)
      if title = "" then none
      else some ⟨"card", title, c.selector, none, some c.text⟩)
  dedupeGo [] items

theorem dedupeGo_length_le (l : List ElementDescriptor) :
    ∀ seen, (dedupeGo seen l).length ≤ l.length := by
  induction l with
  | nil =>
    intro seen
    simp [dedupeGo]
  | cons i rest ih =>
    intro seen
    rw [dedupeGo]
    split
    · exact le_trans (ih seen) (by simp)
    · simpa using ih (dedupeKey i :: seen)

/-- C9, confirmed.  For every document, the scanner's post-deduplication
elements array has at most 700 entries, the sum of the per-category caps
200 + 200 + 100 + 50 + 50 + 100. -/
theorem C9_element_cap (d : ScanDoc) : (extractElements d).length ≤ 700 := by
  have hb : ∀ (f : PElem → Option ElementDescriptor) (l : List PElem) (n : Nat),
      ((l.take n).filterMap f).length ≤ n := by
    intro f l n
    refine le_trans (List.length_filterMap_le f (l.take n)) ?_
    rw [List.length_take]
    exact min_le_left _ _
  rw [extractElements]
  refine le_trans (dedupeGo_length_le _ []) ?_
  simp only [List.length_append]
  refine le_trans (Nat.add_le_add (Nat.add_le_add (Nat.add_le_add (Nat.add_le_add
    (Nat.add_le_add (hb _ _ _) (hb _ _ _)) (hb _ _ _)) (hb _ _ _)) (hb _ _ _))
    (hb _ _ _)) (by norm_num)

end BrowserCopilot
